import Mathlib

/-!
Shallow embedding of the kefi-notetaker backend core: the note index
(`services/note_index_service.py`), the note service with its
marker-replacement protocol (`services/note_service.py`), the settings
service (`services/settings_service.py`) and the transcription job engine
(`services/transcription_job_service.py`).

Modeling conventions:
* Python `str` values are modeled as `List Char` (`Str`).
* Python dicts used as keyed tables are modeled as association lists with
  first-occurrence lookup and in-place update, mirroring insertion order.
* `uuid4().hex` identifiers are modeled as abstract numeric identifiers
  drawn from a fresh counter carried in the state.
* ISO timestamps (`updated_at` and friends) carry no program logic apart
  from history pruning; prune-relevant times are modeled as natural-number
  epoch seconds, and the purely informational timestamp writes are dropped.
* Wall-clock values (`available_at`) are modeled as exact rationals.
-/

/-- Python strings as lists of characters. -/
abbrev Str := List Char

/-- `isPrefixL needle hay`: `hay` starts with `needle` (Python `startswith`). -/
def isPrefixL : Str → Str → Bool
  | [], _ => true
  | _ :: _, [] => false
  | a :: as, b :: bs => a == b && isPrefixL as bs

/-- `occursIn needle hay`: Python `needle in hay` substring test. -/
def occursIn (needle : Str) : Str → Bool
  | [] => isPrefixL needle []
  | c :: t => isPrefixL needle (c :: t) || occursIn needle t

/-- Python `hay.replace(needle, repl, 1)`: replace the first occurrence only. -/
def replaceFirst (needle repl : Str) : Str → Str
  | [] => if needle = [] then repl else []
  | c :: t =>
    if isPrefixL needle (c :: t) then repl ++ (c :: t).drop needle.length
    else c :: replaceFirst needle repl t

/-- Python `hay.replace(needle, repl)` for a non-empty needle: replace every
non-overlapping occurrence, scanning left to right.  (All call sites in the
source pass the non-empty literals `[[`, `]]`, `[`, `]`.)  The scan consumes
at least one character per step, so running it on `hay.length` fuel is
exact; the fuel only makes the recursion structural. -/
def replaceAllF (needle repl : Str) : Nat → Str → Str
  | _, [] => []
  | 0, hay => hay
  | fuel + 1, c :: t =>
    if needle ≠ [] ∧ isPrefixL needle (c :: t) = true then
      repl ++ replaceAllF needle repl fuel ((c :: t).drop needle.length)
    else
      c :: replaceAllF needle repl fuel t

def replaceAll (needle repl hay : Str) : Str :=
  replaceAllF needle repl hay.length hay

/-- The `seen`-set deduplication loop of `NoteService._marker_candidates`:
keep the first occurrence of each candidate, preserving order. -/
def dedupSeen (seen : List Str) : List Str → List Str
  | [] => []
  | x :: xs => if x ∈ seen then dedupSeen seen xs else x :: dedupSeen (x :: seen) xs

/-- `NoteService._marker_candidates`: ordered candidate spellings of the
marker token (raw; outer `[[` escaped; `[[` and `]]` escaped; every bracket
escaped), duplicates removed with order preserved. -/
def markerCandidates (markerToken : Str) : List Str :=
  if markerToken = [] then []
  else
    dedupSeen []
      [ markerToken,
        replaceAll "[[".data "\\[\\[".data markerToken,
        replaceAll "]]".data "\\]\\]".data (replaceAll "[[".data "\\[\\[".data markerToken),
        replaceAll "]".data "\\]".data (replaceAll "[".data "\\[".data markerToken) ]

/-! ## Keyed tables (Python dicts as insertion-ordered association lists) -/

def lookupKey {κ α : Type} [DecidableEq κ] (k : κ) : List (κ × α) → Option α
  | [] => none
  | (k', v) :: rest => if k' = k then some v else lookupKey k rest

def setKey {κ α : Type} [DecidableEq κ] (k : κ) (v : α) : List (κ × α) → List (κ × α)
  | [] => [(k, v)]
  | (k', v') :: rest => if k' = k then (k, v) :: rest else (k', v') :: setKey k v rest

def delKey {κ α : Type} [DecidableEq κ] (k : κ) : List (κ × α) → List (κ × α)
  | [] => []
  | (k', v') :: rest => if k' = k then rest else (k', v') :: delKey k rest

/-! ## File service (`services/file_service.py`)

The note store is modeled as a table from relative path (with extension)
to file content.  `Path.stat` metadata is not modeled. -/

abbrev FsState := List (Str × Str)

def SUPPORTED_EXTENSIONS : List Str := [".txt".data, ".md".data]

/-- `FileService._has_valid_extension`. -/
def hasValidExtension (notePath : Str) : Bool :=
  SUPPORTED_EXTENSIONS.any (fun ext => ext.isSuffixOf notePath)

/-- `FileService.validate_path`, string-level checks.  The trailing
`Path.resolve` containment check depends on operating-system path
resolution and is outside the embedding; for the relative, `..`-free
paths accepted below it never rejects. -/
def validatePath (path : Str) : Bool :=
  if path = [] then true
  else !(occursIn "..".data path || isPrefixL "/".data path || isPrefixL "\\".data path)

/-- Python exceptions surfaced by the services. -/
inductive PyErr where
  | valueError (msg : Str)
  | fileNotFound (msg : Str)
  | revisionConflict (noteId : Nat) (expectedRevision : Int) (currentRevision : Nat)
deriving DecidableEq, Repr

/-- `FileService._resolve_note_path`: keep a valid extension, otherwise pick
the first supported extension whose file exists (skipping candidates whose
path fails validation), defaulting to `.txt`. -/
def resolveNotePath (fs : FsState) (notePath : Str) : Str :=
  if hasValidExtension notePath then notePath
  else
    match SUPPORTED_EXTENSIONS.find? (fun ext =>
        validatePath (notePath ++ ext) && (lookupKey (notePath ++ ext) fs).isSome) with
    | some ext => notePath ++ ext
    | none => notePath ++ ".txt".data

/-- `FileService.read_note`. -/
def readNote (fs : FsState) (notePath : Str) : Except PyErr Str :=
  let resolved := resolveNotePath fs notePath
  if validatePath resolved = false then .error (.valueError resolved)
  else
    match lookupKey resolved fs with
    | none => .error (.fileNotFound resolved)
    | some content => .ok content

/-- `FileService.write_note`. -/
def writeNote (fs : FsState) (notePath content : Str) : Except PyErr FsState :=
  let resolved := resolveNotePath fs notePath
  if validatePath resolved = false then .error (.valueError resolved)
  else .ok (setKey resolved content fs)

/-- The extension probing loop of `FileService.note_exists`; a `ValueError`
from `_get_full_path` aborts the whole check (`none`). -/
def noteExistsLoop (fs : FsState) (notePath : Str) : List Str → Option Bool
  | [] => some false
  | ext :: rest =>
    if validatePath (notePath ++ ext) = false then none
    else if (lookupKey (notePath ++ ext) fs).isSome then some true
    else noteExistsLoop fs notePath rest

/-- `FileService.note_exists` (the `except ValueError: return False` wrapper
turns an aborted probe into `false`). -/
def noteExists (fs : FsState) (notePath : Str) : Bool :=
  if hasValidExtension notePath = false then
    (noteExistsLoop fs notePath SUPPORTED_EXTENSIONS).getD false
  else if validatePath notePath = false then false
  else (lookupKey notePath fs).isSome

/-! ## Note index (`services/note_index_service.py`) -/

structure NoteRecord where
  path : Str
  revision : Nat
  deleted : Bool
deriving DecidableEq, Repr

structure IndexState where
  notes : List (Nat × NoteRecord)
  pathToId : List (Str × Nat)
  nextId : Nat
deriving DecidableEq, Repr

def emptyIndex : IndexState := ⟨[], [], 1⟩

def mapSlash (p : Str) : Str := p.map (fun c => if c = '\\' then '/' else c)

def isWsChar (c : Char) : Bool :=
  c = ' ' || c = '\t' || c = '\n' || c = '\r' || c = '\x0b' || c = '\x0c'

/-- Python `str.strip()` (ASCII whitespace; exotic Unicode spaces are out of
scope of the embedding). -/
def stripWs (s : Str) : Str :=
  ((s.dropWhile isWsChar).reverse.dropWhile isWsChar).reverse

/-- `NoteIndexService._normalize_path`. -/
def normalizePath (path : Str) : Str := mapSlash (stripWs path)

/-- `NoteService._strip_extension`. -/
def stripExtension (path : Str) : Str :=
  let normalized := mapSlash path
  match SUPPORTED_EXTENSIONS.find? (fun ext => ext.isSuffixOf normalized) with
  | some ext => normalized.take (normalized.length - ext.length)
  | none => normalized

/-- The record-creation tail of `NoteIndexService._ensure_path_locked`. -/
def ensureCreate (st : IndexState) (path : Str) : (Nat × Nat) × IndexState :=
  let noteId := st.nextId
  ((noteId, 1),
    { notes := setKey noteId ⟨path, 1, false⟩ st.notes,
      pathToId := setKey path noteId st.pathToId,
      nextId := st.nextId + 1 })

/-- `NoteIndexService._ensure_path_locked`: returns `(note_id, revision)`
and the updated index. -/
def ensurePathLocked (st : IndexState) (path : Str) : (Nat × Nat) × IndexState :=
  match lookupKey path st.pathToId with
  | some noteId =>
    match lookupKey noteId st.notes with
    | some record =>
      let st' :=
        if record.deleted then
          { st with notes := setKey noteId { record with deleted := false } st.notes }
        else st
      ((noteId, record.revision), st')
    | none => ensureCreate st path
  | none => ensureCreate st path

/-- `NoteIndexService.ensure_path`. -/
def ensurePath (st : IndexState) (path : Str) : (Nat × Nat) × IndexState :=
  ensurePathLocked st (normalizePath path)

/-- `NoteIndexService.get_by_id`: `(path, revision)` of a live record. -/
def getById (st : IndexState) (noteId : Nat) : Option (Str × Nat) :=
  match lookupKey noteId st.notes with
  | none => none
  | some record => if record.deleted then none else some (record.path, record.revision)

/-- `NoteIndexService.resolve_path`. -/
def resolvePath (st : IndexState) (noteId : Nat) : Option Str :=
  match lookupKey noteId st.notes with
  | none => none
  | some record => if record.deleted then none else some record.path

/-- `NoteIndexService.increment_revision`. -/
def incrementRevision (st : IndexState) (noteId : Nat) : Option Nat × IndexState :=
  match lookupKey noteId st.notes with
  | none => (none, st)
  | some record =>
    if record.deleted then (none, st)
    else
      let record' := { record with revision := record.revision + 1 }
      (some record'.revision, { st with notes := setKey noteId record' st.notes })

/-- `NoteIndexService.update_path`. -/
def updatePath (st : IndexState) (noteId : Nat) (newPath : Str) :
    Option (Str × Nat) × IndexState :=
  match lookupKey noteId st.notes with
  | none => (none, st)
  | some record =>
    let oldPath := record.path
    let normalized := normalizePath newPath
    let record' := { record with path := normalized, deleted := false }
    let pid :=
      if oldPath ≠ [] ∧ (lookupKey oldPath st.pathToId).isSome then
        delKey oldPath st.pathToId
      else st.pathToId
    (some (normalized, record.revision),
      { st with notes := setKey noteId record' st.notes,
                pathToId := setKey normalized noteId pid })

/-- `NoteIndexService.mark_deleted_by_id`. -/
def markDeletedById (st : IndexState) (noteId : Nat) : IndexState :=
  match lookupKey noteId st.notes with
  | none => st
  | some record =>
    let st1 := { st with notes := setKey noteId { record with deleted := true } st.notes }
    if record.path ≠ [] ∧ lookupKey record.path st1.pathToId = some noteId then
      { st1 with pathToId := delKey record.path st1.pathToId }
    else st1

/-- `NoteIndexService.mark_deleted_by_path`. -/
def markDeletedByPath (st : IndexState) (path : Str) : IndexState :=
  match lookupKey (normalizePath path) st.pathToId with
  | some noteId => markDeletedById st noteId
  | none => st

/-- Code-point lexicographic order on strings (Python `sorted`). -/
def strLt : Str → Str → Bool
  | [], [] => false
  | [], _ :: _ => true
  | _ :: _, [] => false
  | a :: as, b :: bs =>
    if a.val < b.val then true
    else if b.val < a.val then false
    else strLt as bs

def insertSortedStr (x : Str) : List Str → List Str
  | [] => [x]
  | y :: ys => if strLt x y then x :: y :: ys else y :: insertSortedStr x ys

def sortStrs : List Str → List Str
  | [] => []
  | x :: xs => insertSortedStr x (sortStrs xs)

def dedupStrs : List Str → List Str
  | [] => []
  | x :: xs => if x ∈ xs then dedupStrs xs else x :: dedupStrs xs

/-- First phase of `NoteIndexService.sync_paths`: ensure ids for all current
paths, in sorted order. -/
def syncPhase1 (st : IndexState) : List Str → IndexState
  | [] => st
  | p :: rest => syncPhase1 (ensurePathLocked st p).2 rest

/-- The per-record body of the second loop of `sync_paths`: tombstone a
record whose path disappeared, un-tombstone one whose path is present;
empty paths are skipped. -/
def markFn (normalized : List Str) (r : NoteRecord) : NoteRecord :=
  if r.path = [] then r
  else if r.path ∈ normalized then { r with deleted := false }
  else { r with deleted := true }

/-- Second phase of `sync_paths`, applied entrywise over the table. -/
def syncMark (normalized : List Str) (notes : List (Nat × NoteRecord)) :
    List (Nat × NoteRecord) :=
  notes.map (fun entry => (entry.1, markFn normalized entry.2))

/-- One step of the third loop of `sync_paths`: register a non-deleted,
non-empty path (later records overwrite earlier ones). -/
def rebuildStep (acc : List (Str × Nat)) (entry : Nat × NoteRecord) :
    List (Str × Nat) :=
  if entry.2.deleted then acc
  else if entry.2.path = [] then acc
  else setKey entry.2.path entry.1 acc

/-- Third phase of `sync_paths`: rebuild `path_to_id` from non-deleted
records, in table order. -/
def syncRebuild (notes : List (Nat × NoteRecord)) : List (Str × Nat) :=
  notes.foldl rebuildStep []

/-- The normalized, deduplicated, sorted path set handed to the phases of
`sync_paths`. -/
def normalizedList (currentPaths : List Str) : List Str :=
  sortStrs (dedupStrs ((currentPaths.filter (fun p => p ≠ [])).map normalizePath))

/-- `NoteIndexService.sync_paths`. -/
def syncPaths (st : IndexState) (currentPaths : List Str) : IndexState :=
  let normalized := normalizedList currentPaths
  let st1 := syncPhase1 st normalized
  let notes' := syncMark normalized st1.notes
  { st1 with notes := notes', pathToId := syncRebuild notes' }

/-! ## Note service (`services/note_service.py`) -/

structure NotesState where
  fs : FsState
  index : IndexState
deriving DecidableEq, Repr

inductive ReplaceStatus where
  | applied
  | markerMissing
  | noteDeleted
deriving DecidableEq, Repr

structure ReplaceResult where
  status : ReplaceStatus
  noteId : Nat
  notePath : Option Str
  revision : Option Nat
deriving DecidableEq, Repr

/-- `NoteService.replace_marker`.  Exceptions are returned in the `Except`
component; the returned state is the state at the moment the call finishes
(unchanged when the call raised before mutating anything). -/
def replaceMarker (st : NotesState) (noteId : Nat) (markerToken replacementText : Str) :
    Except PyErr ReplaceResult × NotesState :=
  if markerToken = [] then
    (.error (.valueError "marker_token is required".data), st)
  else
    match getById st.index noteId with
    | none => (.ok ⟨.noteDeleted, noteId, none, none⟩, st)
    | some (notePath, revision) =>
      match readNote st.fs notePath with
      | .error e => (.error e, st)
      | .ok content =>
        match (markerCandidates markerToken).find? (fun c => occursIn c content) with
        | none => (.ok ⟨.markerMissing, noteId, some notePath, some revision⟩, st)
        | some matchedMarker =>
          let updatedContent := replaceFirst matchedMarker replacementText content
          match writeNote st.fs notePath updatedContent with
          | .error e => (.error e, st)
          | .ok fs' =>
            let (newRevision, index') := incrementRevision st.index noteId
            (.ok ⟨.applied, noteId, some notePath, newRevision⟩,
              { fs := fs', index := index' })

/-- The view of a note returned by the service (`Note.to_dict` plus the
identity fields; file-stat metadata is not modeled). -/
structure NoteView where
  noteId : Nat
  path : Str
  content : Str
  revision : Nat
deriving DecidableEq, Repr

/-- `NoteService._build_note_dict`. -/
def buildNoteDict (st : NotesState) (pathWithoutExt : Str) :
    Except PyErr NoteView × NotesState :=
  let resolved := resolveNotePath st.fs pathWithoutExt
  match readNote st.fs resolved with
  | .error e => (.error e, st)
  | .ok content =>
    let canonical := stripExtension resolved
    let ((noteId, revision), index') := ensurePath st.index canonical
    (.ok ⟨noteId, canonical, content, revision⟩, { st with index := index' })

/-- `NoteService.get_note_by_id`. -/
def getNoteById (st : NotesState) (noteId : Nat) : Except PyErr NoteView × NotesState :=
  match getById st.index noteId with
  | none => (.error (.fileNotFound "Note not found for id".data), st)
  | some (path, _) => buildNoteDict st path

/-- `NoteService.update_note`. -/
def updateNote (st : NotesState) (notePath content : Str)
    (expectedRevision : Option Int) : Except PyErr NoteView × NotesState :=
  if noteExists st.fs notePath = false then
    (.error (.fileNotFound notePath), st)
  else
    match expectedRevision with
    | none => (.error (.valueError "expected_revision is required".data), st)
    | some expected =>
      let resolvedPath := resolveNotePath st.fs notePath
      let pathWithoutExt := stripExtension resolvedPath
      let ((noteId, currentRevision), index1) := ensurePath st.index pathWithoutExt
      let st1 : NotesState := { st with index := index1 }
      if expected ≠ (currentRevision : Int) then
        (.error (.revisionConflict noteId expected currentRevision), st1)
      else
        match writeNote st1.fs pathWithoutExt content with
        | .error e => (.error e, st1)
        | .ok fs' =>
          let (_, index2) := incrementRevision index1 noteId
          getNoteById { fs := fs', index := index2 } noteId

/-! ## Transcription job engine (`services/transcription_job_service.py`)

The engine re-reads the settings service on every step; the integer and
boolean values it extracts are modeled as an explicit record.  Persistence
is write-through (`_persist_snapshot` rewrites the whole state), so the
persisted snapshot is identified with the in-memory state.  Temp audio
files live in a `tempFiles` table; `WhisperService.cleanup_temp_file`
(unlink with `missing_ok`) removes an entry when present. -/

inductive JobStatus where
  | queued
  | running
  | cancelRequested
  | cancelled
  | completed
  | failed
  | orphaned
  | interrupted
deriving DecidableEq, Repr

def TERMINAL_STATUSES : List JobStatus :=
  [.completed, .failed, .orphaned, .cancelled]

def isTerminal (s : JobStatus) : Bool := s ∈ TERMINAL_STATUSES

structure TxSettings where
  maxConcurrentJobs : Int
  maxQueuedJobs : Int
  historyMaxEntries : Int
  historyTtlDays : Int
  retryMax : Int
  retryBaseMs : Int
  autoRequeueInterrupted : Bool
deriving DecidableEq, Repr

structure Job where
  status : JobStatus
  createdAt : Nat
  updatedAt : Nat
  completedAt : Option Nat
  availableAt : ℚ
  attempts : Nat
  restartRequeues : Nat
  noteId : Nat
  notePath : Option Str
  markerToken : Str
  audioPath : Str
  sourceFilename : Str
  launchSource : Str
  transcriptText : Option Str
  errorCode : Option Str
  errorMsg : Option Str
  durationMs : Option Int
  lastResult : Option ReplaceResult
  cancelRequestedFlag : Bool
  noteRevision : Option Nat
deriving DecidableEq, Repr

structure EngineState where
  jobs : List (Nat × Job)
  queue : List Nat
  nextJobId : Nat
deriving DecidableEq, Repr

structure EngineWorld where
  engine : EngineState
  notes : NotesState
  tempFiles : List Str
deriving DecidableEq, Repr

/-- Python `list.remove`: drop the first occurrence. -/
def removeFirst {α : Type} [DecidableEq α] (x : α) : List α → List α
  | [] => []
  | y :: ys => if y = x then ys else y :: removeFirst x ys

/-- `WhisperService.cleanup_temp_file`. -/
def cleanupTempFile (tempFiles : List Str) (path : Str) : List Str :=
  removeFirst path tempFiles

/-- `TranscriptionJobService._queue_job_locked`. -/
def queueJobLocked (st : EngineState) (jobId : Nat) (delayMs : Int) (now : ℚ) :
    EngineState :=
  match lookupKey jobId st.jobs with
  | none => st
  | some job =>
    let job1 :=
      { job with availableAt := if 0 < delayMs then now + (delayMs : ℚ) / 1000 else now }
    let queue' := if jobId ∈ st.queue then st.queue else st.queue ++ [jobId]
    let job2 := { job1 with status := .queued }
    { st with jobs := setKey jobId job2 st.jobs, queue := queue' }

/-- `completed_at or updated_at or created_at` fallback used by pruning
(`updated_at` is always set in the source). -/
def completedTime (job : Job) : Nat := job.completedAt.getD job.updatedAt

/-- `TranscriptionJobService._remove_job_locked`. -/
def removeJobLocked (st : EngineState) (jobId : Nat) : EngineState :=
  { st with jobs := delKey jobId st.jobs, queue := removeFirst jobId st.queue }

def insertDescTime (x : Nat × Nat) : List (Nat × Nat) → List (Nat × Nat)
  | [] => [x]
  | y :: ys => if y.2 ≤ x.2 then x :: y :: ys else y :: insertDescTime x ys

/-- Python's stable `sort(key=time, reverse=True)`. -/
def sortDescByTime : List (Nat × Nat) → List (Nat × Nat)
  | [] => []
  | x :: xs => insertDescTime x (sortDescByTime xs)

/-- First pass of `_prune_history_locked`: ids of terminal jobs whose
completion time is older than the TTL cutoff. -/
def pruneExpiredIds (settings : TxSettings) (nowSec : Nat) (st : EngineState) :
    List Nat :=
  (st.jobs.filter (fun e =>
      isTerminal e.2.status &&
      decide ((completedTime e.2 : Int) <
        (nowSec : Int) - settings.historyTtlDays * 86400))).map (·.1)

/-- Second pass of `_prune_history_locked`: terminal jobs sorted by
completion time descending, everything past `history_max_entries`. -/
def pruneExcessIds (settings : TxSettings) (st1 : EngineState) : List Nat :=
  ((sortDescByTime ((st1.jobs.filter (fun e => isTerminal e.2.status)).map
      (fun e => (e.1, completedTime e.2)))).drop
    settings.historyMaxEntries.toNat).map (·.1)

/-- `TranscriptionJobService._prune_history_locked`.  Times are epoch
seconds; `history_max_entries` is non-negative whenever it comes from the
sanitized settings, so the Python negative-slice corner is out of scope. -/
def pruneHistoryLocked (settings : TxSettings) (nowSec : Nat) (st : EngineState) :
    EngineState :=
  let st1 := (pruneExpiredIds settings nowSec st).foldl removeJobLocked st
  (pruneExcessIds settings st1).foldl removeJobLocked st1

/-- The queue-cleaning step of `TranscriptionJobService._load_state`. -/
def loadStateQueueClean (st : EngineState) : EngineState :=
  { st with queue := st.queue.filter (fun jobId => (lookupKey jobId st.jobs).isSome) }

/-- The effect of `_recover_after_restart` on a single job record. -/
def recoverJob (auto : Bool) (retryMax : Int) (now : ℚ) (job : Job) : Job :=
  if job.status = .running ∨ job.status = .cancelRequested then
    let job1 := { job with
      status := .interrupted,
      errorCode := some "restart_interrupted".data,
      errorMsg := some "Job interrupted by backend restart".data }
    if auto ∧ (job1.restartRequeues : Int) < 1 ∧ (job1.attempts : Int) ≤ retryMax then
      { job1 with
        restartRequeues := job1.restartRequeues + 1,
        availableAt := now, status := .queued }
    else job1
  else job

/-- The per-job loop of `TranscriptionJobService._recover_after_restart`
(with `_queue_job_locked` inlined for the jobs-table entry being mutated). -/
def recoverJobLoop (auto : Bool) (retryMax : Int) (now : ℚ) :
    List (Nat × Job) → List Nat → List (Nat × Job) × List Nat
  | [], queue => ([], queue)
  | (jobId, job) :: rest, queue =>
    if job.status = .running ∨ job.status = .cancelRequested then
      let job1 := { job with
        status := .interrupted,
        errorCode := some "restart_interrupted".data,
        errorMsg := some "Job interrupted by backend restart".data }
      if auto ∧ (job1.restartRequeues : Int) < 1 ∧ (job1.attempts : Int) ≤ retryMax then
        let job2 := { job1 with
          restartRequeues := job1.restartRequeues + 1,
          availableAt := now, status := .queued }
        let queue1 := if jobId ∈ queue then queue else queue ++ [jobId]
        let (rest', queue2) := recoverJobLoop auto retryMax now rest queue1
        ((jobId, job2) :: rest', queue2)
      else
        let (rest', queue') := recoverJobLoop auto retryMax now rest queue
        ((jobId, job1) :: rest', queue')
    else
      let (rest', queue') := recoverJobLoop auto retryMax now rest queue
      ((jobId, job) :: rest', queue')

/-- `TranscriptionJobService._recover_after_restart`. -/
def recoverAfterRestart (settings : TxSettings) (now : ℚ) (nowSec : Nat)
    (st : EngineState) : EngineState :=
  let (jobs', queue') :=
    recoverJobLoop settings.autoRequeueInterrupted settings.retryMax now st.jobs st.queue
  pruneHistoryLocked settings nowSec { st with jobs := jobs', queue := queue' }

/-- Engine construction on restart: `_load_state` queue cleaning followed by
`_recover_after_restart`. -/
def engineConstruct (settings : TxSettings) (now : ℚ) (nowSec : Nat)
    (st : EngineState) : EngineState :=
  recoverAfterRestart settings now nowSec (loadStateQueueClean st)

/-- The admission count of `create_job`: jobs with status in
{queued, running, cancel_requested, interrupted}. -/
def activeQueuedCount (st : EngineState) : Nat :=
  (st.jobs.filter (fun e =>
      e.2.status = .queued ∨ e.2.status = .running ∨
      e.2.status = .cancelRequested ∨ e.2.status = .interrupted)).length

/-- `TranscriptionJobService.create_job` (job payload built from the fresh
id counter; the snapshot persist and event append are write-through). -/
def createJob (settings : TxSettings) (now : ℚ) (nowSec : Nat)
    (st : EngineState) (notes : NotesState)
    (audioPath sourceFilename : Str) (noteId : Nat) (markerToken : Str)
    (launchSource : Str) : Except Str Nat × EngineState :=
  if settings.maxQueuedJobs ≤ (activeQueuedCount st : Int) then
    (.error "Transcription queue is full".data, st)
  else
    match resolvePath notes.index noteId with
    | none => (.error "Target note not found".data, st)
    | some notePath =>
      let jobId := st.nextJobId
      let job : Job := {
        status := .queued, createdAt := nowSec, updatedAt := nowSec,
        completedAt := none, availableAt := now, attempts := 0,
        restartRequeues := 0, noteId := noteId, notePath := some notePath,
        markerToken := markerToken, audioPath := audioPath,
        sourceFilename := sourceFilename, launchSource := launchSource,
        transcriptText := none, errorCode := none, errorMsg := none,
        durationMs := none, lastResult := none, cancelRequestedFlag := false,
        noteRevision := none }
      let st1 := { st with
        jobs := setKey jobId job st.jobs, nextJobId := st.nextJobId + 1 }
      let st2 := queueJobLocked st1 jobId 0 now
      (.ok jobId, pruneHistoryLocked settings nowSec st2)

def toLowerStr (s : Str) : Str := s.map Char.toLower

def TRANSIENT_NEEDLES : List Str :=
  [ "timeout".data, "timed out".data, "temporarily unavailable".data,
    "connection reset".data, "connection aborted".data, "network".data,
    "502".data, "503".data, "504".data ]

/-- `TranscriptionJobService._is_transient_error`. -/
def isTransientError (message : Str) : Bool :=
  let lowered := toLowerStr message
  TRANSIENT_NEEDLES.any (fun needle => occursIn needle lowered)

/-- One step of a right fold computing Python `str.split()`: a whitespace
character opens a (possibly empty) piece, any other character extends the
current piece. -/
def splitWsStep (c : Char) (acc : List Str) : List Str :=
  if isWsChar c then [] :: acc
  else
    match acc with
    | [] => [[c]]
    | w :: ws => (c :: w) :: ws

/-- Python `str.split()`: maximal non-whitespace runs, no empty pieces. -/
def splitWs (s : Str) : List Str :=
  (s.foldr splitWsStep []).filter (fun w => w ≠ [])

/-- Python `" ".join(pieces)`. -/
def joinSpace : List Str → Str
  | [] => []
  | [w] => w
  | w :: ws => w ++ ' ' :: joinSpace ws

/-- `TranscriptionJobService._build_failure_placeholder`. -/
def buildFailurePlaceholder (message : Str) : Str :=
  let base := if message = [] then "Unknown transcription error".data else message
  let cleaned := joinSpace (splitWs base)
  let cleaned2 := if 180 < cleaned.length then cleaned.take 177 ++ "...".data else cleaned
  "[Transcription failed: ".data ++ cleaned2 ++ "]".data

/-- The `except Exception` handler of `TranscriptionJobService._run_job`
(source lines 432-533): retry transient failures with exponential backoff,
otherwise splice the failure placeholder and mark the job failed. -/
def handleRunFailure (settings : TxSettings) (now : ℚ) (nowSec : Nat)
    (w : EngineWorld) (jobId : Nat) (message : Str) : EngineWorld :=
  match lookupKey jobId w.engine.jobs with
  | none => w
  | some job =>
    let attempts := job.attempts
    if isTransientError message = true ∧ (attempts : Int) ≤ settings.retryMax then
      let delayMs : Int := settings.retryBaseMs * 2 ^ (attempts - 1)
      let job1 := { job with
        errorCode := some "transient_error".data, errorMsg := some message }
      let st1 := { w.engine with jobs := setKey jobId job1 w.engine.jobs }
      { w with engine := queueJobLocked st1 jobId delayMs now }
    else
      let placeholder := buildFailurePlaceholder message
      let (applyExc, notes') := replaceMarker w.notes job.noteId job.markerToken placeholder
      let applyResult : Option ReplaceResult :=
        match applyExc with
        | .ok r => some r
        | .error _ => none
      let job1 := { job with
        status := .failed,
        errorCode := some "transcription_error".data,
        errorMsg := some message, completedAt := some nowSec,
        updatedAt := nowSec }
      let job2 :=
        match applyResult with
        | none => job1
        | some r =>
          { job1 with
            lastResult := some r,
            notePath := if (r.notePath.getD []) ≠ [] then r.notePath else job1.notePath,
            noteRevision := if r.revision.isSome then r.revision else job1.noteRevision }
      let st1 := { w.engine with jobs := setKey jobId job2 w.engine.jobs }
      { engine := st1, notes := notes',
        tempFiles := if job.audioPath ≠ [] then cleanupTempFile w.tempFiles job.audioPath
                     else w.tempFiles }

/-! ## Settings service (`services/settings_service.py`)

JSON values as stored in the settings file (floats and arrays play no role
in the transcription settings and are out of scope).  Objects are parsed
Python dicts, so duplicate keys have already collapsed. -/

inductive JVal where
  | jnull
  | jint (n : Int)
  | jbool (b : Bool)
  | jstr (s : Str)
  | jobj (fields : List (Str × JVal))
deriving Repr

/-- `config.py` transcription defaults. -/
def DEFAULT_MAX_CONCURRENT_JOBS : Int := 2
def DEFAULT_MAX_QUEUED_JOBS : Int := 50
def DEFAULT_HISTORY_MAX_ENTRIES : Int := 200
def DEFAULT_HISTORY_TTL_DAYS : Int := 7
def DEFAULT_JOB_RETRY_MAX : Int := 2
def DEFAULT_JOB_RETRY_BASE_MS : Int := 1500

/-- `SettingsService.DEFAULTS["transcription"]`. -/
def SETTINGS_TX_DEFAULTS : List (Str × JVal) :=
  [ ("max_concurrent_jobs".data, .jint DEFAULT_MAX_CONCURRENT_JOBS),
    ("max_queued_jobs".data, .jint DEFAULT_MAX_QUEUED_JOBS),
    ("history_max_entries".data, .jint DEFAULT_HISTORY_MAX_ENTRIES),
    ("history_ttl_days".data, .jint DEFAULT_HISTORY_TTL_DAYS),
    ("retry_max".data, .jint DEFAULT_JOB_RETRY_MAX),
    ("retry_base_ms".data, .jint DEFAULT_JOB_RETRY_BASE_MS),
    ("auto_requeue_interrupted".data, .jbool true) ]

/-- `SettingsService.DEFAULTS`. -/
def SETTINGS_DEFAULTS : List (Str × JVal) :=
  [("transcription".data, .jobj SETTINGS_TX_DEFAULTS)]

mutual

/-- `SettingsService._merge_dicts` on a single value pair: recurse when both
sides are dicts, otherwise the override wins. -/
def mergeVal : JVal → JVal → JVal
  | .jobj bf, .jobj ovf => .jobj (mergeFields bf ovf)
  | _, w => w

/-- `SettingsService._merge_dicts`. -/
def mergeFields (base ov : List (Str × JVal)) : List (Str × JVal) :=
  mergeLeft base ov ++ ov.filter (fun kv => (lookupKey kv.1 base).isNone)

/-- The first loop of `_merge_dicts`: base keys in order, overridden where
the override has the key. -/
def mergeLeft : List (Str × JVal) → List (Str × JVal) → List (Str × JVal)
  | [], _ => []
  | (k, v) :: rest, ov =>
    (k, match lookupKey k ov with
        | none => v
        | some w => mergeVal v w) :: mergeLeft rest ov

end

/-- `SettingsService._load`: `none` models a missing file, a non-object
payload models a corrupt or non-dict file (`except: raw = {}` and the
`isinstance` guard collapse to the same merge). -/
def settingsLoad (raw : Option JVal) : List (Str × JVal) :=
  match raw with
  | none => SETTINGS_DEFAULTS
  | some (.jobj fields) => mergeFields SETTINGS_DEFAULTS fields
  | some _ => mergeFields SETTINGS_DEFAULTS []

def digitVal (c : Char) : Option Nat :=
  if '0' ≤ c ∧ c ≤ '9' then some (c.toNat - '0'.toNat) else none

def parseDigits : Str → Option Nat
  | [] => none
  | [c] => digitVal c
  | c :: rest =>
    match digitVal c, parseDigits rest with
    | some d, some n => some (d * 10 ^ rest.length + n)
    | _, _ => none

/-- Python `int(str)` on the forms that occur in settings files: optional
sign, decimal digits, surrounding whitespace (underscore separators and
non-ASCII digits are out of scope). -/
def parseIntPy (s : Str) : Option Int :=
  match stripWs s with
  | '+' :: rest => (parseDigits rest).map Int.ofNat
  | '-' :: rest => (parseDigits rest).map (fun n => -(n : Int))
  | t => (parseDigits t).map Int.ofNat

/-- Python `int(value)` over a JSON value (raises on `None`, non-numeric
strings and objects). -/
def jvalToInt : JVal → Option Int
  | .jint n => some n
  | .jbool b => some (if b then 1 else 0)
  | .jstr s => parseIntPy s
  | _ => none

/-- The `to_int` helper inside `SettingsService._sanitize`. -/
def toIntClamped (value : Option JVal) (fallback lo hi : Int) : Int :=
  let result :=
    match value with
    | some w => (jvalToInt w).getD fallback
    | none => fallback
  max lo (min hi result)

/-- Python truthiness of a JSON value (`bool(value)`). -/
def truthy : JVal → Bool
  | .jnull => false
  | .jint n => n ≠ 0
  | .jbool b => b
  | .jstr s => s ≠ []
  | .jobj fields => !fields.isEmpty

/-- The per-key clamping block of `SettingsService._sanitize`, applied to
the transcription sub-dict in source order. -/
def sanitizeTx (tx : List (Str × JVal)) : List (Str × JVal) :=
  let tx1 := setKey "max_concurrent_jobs".data
    (.jint (toIntClamped (lookupKey "max_concurrent_jobs".data tx)
      DEFAULT_MAX_CONCURRENT_JOBS 1 8)) tx
  let tx2 := setKey "max_queued_jobs".data
    (.jint (toIntClamped (lookupKey "max_queued_jobs".data tx1)
      DEFAULT_MAX_QUEUED_JOBS 1 500)) tx1
  let tx3 := setKey "history_max_entries".data
    (.jint (toIntClamped (lookupKey "history_max_entries".data tx2)
      DEFAULT_HISTORY_MAX_ENTRIES 10 5000)) tx2
  let tx4 := setKey "history_ttl_days".data
    (.jint (toIntClamped (lookupKey "history_ttl_days".data tx3)
      DEFAULT_HISTORY_TTL_DAYS 1 365)) tx3
  let tx5 := setKey "retry_max".data
    (.jint (toIntClamped (lookupKey "retry_max".data tx4)
      DEFAULT_JOB_RETRY_MAX 0 10)) tx4
  let tx6 := setKey "retry_base_ms".data
    (.jint (toIntClamped (lookupKey "retry_base_ms".data tx5)
      DEFAULT_JOB_RETRY_BASE_MS 100 60000)) tx5
  setKey "auto_requeue_interrupted".data
    (.jbool (truthy ((lookupKey "auto_requeue_interrupted".data tx6).getD .jnull))) tx6

/-- `SettingsService._sanitize`: merge the payload over the defaults, then
coerce and clamp the transcription keys.  A non-dict `transcription` value
makes the Python `tx.get` calls raise `AttributeError`. -/
def sanitizeSettings (payload : List (Str × JVal)) : Except Str (List (Str × JVal)) :=
  let merged := mergeFields SETTINGS_DEFAULTS payload
  match lookupKey "transcription".data merged with
  | some (.jobj tx) =>
    .ok (setKey "transcription".data (.jobj (sanitizeTx tx)) merged)
  | some _ => .error "AttributeError".data
  | none => .ok (setKey "transcription".data (.jobj (sanitizeTx [])) merged)

/-! ## Witness inputs -/

/-- A one-note world (file `n.txt`, live index record 1 at revision 1) used
to instantiate the theorems on concrete inputs. -/
def wNotes : NotesState :=
  { fs := [("n.txt".data, "a[[m]]b".data)],
    index := { notes := [(1, ⟨"n".data, 1, false⟩)],
               pathToId := [("n".data, 1)], nextId := 2 } }


/-- Default transcription settings, as read by the engine. -/
def wSettings : TxSettings :=
  { maxConcurrentJobs := 2, maxQueuedJobs := 50, historyMaxEntries := 200,
    historyTtlDays := 7, retryMax := 2, retryBaseMs := 1500,
    autoRequeueInterrupted := true }

/-- A single leased job (attempt 1) used to instantiate the engine claims. -/
def wJob : Job :=
  { status := .running, createdAt := 0, updatedAt := 0, completedAt := none,
    availableAt := 0, attempts := 1, restartRequeues := 0, noteId := 1,
    notePath := some "n".data, markerToken := "[[m]]".data,
    audioPath := "a.wav".data, sourceFilename := "a.wav".data,
    launchSource := "drop".data, transcriptText := none, errorCode := none,
    errorMsg := none, durationMs := none, lastResult := none,
    cancelRequestedFlag := false, noteRevision := none }

/-- An engine world holding the single running job and its temp audio. -/
def wWorld : EngineWorld :=
  { engine := { jobs := [(1, wJob)], queue := [], nextJobId := 2 },
    notes := wNotes, tempFiles := ["a.wav".data] }

/-- The transcription settings keys. -/
def TX_KEYS : List Str :=
  [ "max_concurrent_jobs".data, "max_queued_jobs".data,
    "history_max_entries".data, "history_ttl_days".data,
    "retry_max".data, "retry_base_ms".data, "auto_requeue_interrupted".data ]

/-- The engine's read of a transcription key out of a settings view
(`settings_service.get().get("transcription", {}).get(k)`). -/
def txField (s : List (Str × JVal)) (k : Str) : Option JVal :=
  match lookupKey "transcription".data s with
  | some (.jobj tx) => lookupKey k tx
  | _ => none

/-- The spec-side range property of a sanitized settings view: every
transcription key present, integer/boolean, clamped into its declared
range. -/
def txSanitizedInRange (out : List (Str × JVal)) : Prop :=
  ∃ tx, lookupKey "transcription".data out = some (.jobj tx) ∧
    (∃ n, lookupKey "max_concurrent_jobs".data tx = some (.jint n) ∧
      1 ≤ n ∧ n ≤ 8) ∧
    (∃ n, lookupKey "max_queued_jobs".data tx = some (.jint n) ∧
      1 ≤ n ∧ n ≤ 500) ∧
    (∃ n, lookupKey "history_max_entries".data tx = some (.jint n) ∧
      10 ≤ n ∧ n ≤ 5000) ∧
    (∃ n, lookupKey "history_ttl_days".data tx = some (.jint n) ∧
      1 ≤ n ∧ n ≤ 365) ∧
    (∃ n, lookupKey "retry_max".data tx = some (.jint n) ∧
      0 ≤ n ∧ n ≤ 10) ∧
    (∃ n, lookupKey "retry_base_ms".data tx = some (.jint n) ∧
      100 ≤ n ∧ n ≤ 60000) ∧
    (∃ b, lookupKey "auto_requeue_interrupted".data tx = some (.jbool b))

/-- The sanitized settings view produced by sanitizing an empty patch over
the defaults, used to instantiate the settings theorems concretely. -/
def wSanitized : List (Str × JVal) :=
  [("transcription".data, .jobj
    [ ("max_concurrent_jobs".data, .jint 2),
      ("max_queued_jobs".data, .jint 50),
      ("history_max_entries".data, .jint 200),
      ("history_ttl_days".data, .jint 7),
      ("retry_max".data, .jint 2),
      ("retry_base_ms".data, .jint 1500),
      ("auto_requeue_interrupted".data, .jbool true) ])]

/-- The spec's description of a message collapsed to one line: the same
non-whitespace characters in order, whitespace appearing only as single
interior spaces, and no whitespace at either end. -/
def isCollapseOf (cl msg : Str) : Prop :=
  cl.filter (fun c => !isWsChar c) = msg.filter (fun c => !isWsChar c) ∧
  (∀ c ∈ cl, isWsChar c = true → c = ' ') ∧
  List.Chain' (fun a b => ¬(a = ' ' ∧ b = ' ')) cl ∧
  (∀ c ∈ cl.head?, isWsChar c = false) ∧
  (∀ c ∈ cl.getLast?, isWsChar c = false)

/-- The spec's uniqueness property: no two non-deleted records share a
path. -/
def liveUnique (st : IndexState) : Prop :=
  ∀ id1 r1 id2 r2, lookupKey id1 st.notes = some r1 →
    lookupKey id2 st.notes = some r2 → r1.deleted = false →
    r2.deleted = false → r1.path = r2.path → id1 = id2

/-- The spec's projection property: `path_to_id` maps `p` to `id` exactly
when the notes table holds a non-deleted record with path `p` at `id`. -/
def pathProjection (st : IndexState) : Prop :=
  ∀ p noteId, lookupKey p st.pathToId = some noteId ↔
    ∃ r, lookupKey noteId st.notes = some r ∧ r.deleted = false ∧ r.path = p

/-- The inductive invariant of the note index: duplicate-free tables,
fresh id counter, nonempty record paths, and the projection property. -/
def indexInv (st : IndexState) : Prop :=
  (st.notes.map Prod.fst).Nodup ∧
  (st.pathToId.map Prod.fst).Nodup ∧
  (∀ noteId, noteId ∈ st.notes.map Prod.fst → noteId < st.nextId) ∧
  (∀ noteId r, lookupKey noteId st.notes = some r → r.path ≠ []) ∧
  pathProjection st

/-- The public mutating note-index operations named by the claim. -/
inductive IndexOp where
  | ensure (path : Str)
  | update (noteId : Nat) (newPath : Str)
  | delById (noteId : Nat)
  | delByPath (path : Str)
  | sync (paths : List Str)

/-- Interpretation of one index operation. -/
def applyOp (st : IndexState) : IndexOp → IndexState
  | .ensure p => (ensurePath st p).2
  | .update noteId p => (updatePath st noteId p).2
  | .delById noteId => markDeletedById st noteId
  | .delByPath p => markDeletedByPath st p
  | .sync ps => syncPaths st ps

/-- Interpretation of an operation sequence, left to right. -/
def applyOps (st : IndexState) : List IndexOp → IndexState
  | [] => st
  | op :: ops => applyOps (applyOp st op) ops

/-- Preconditions of one operation against the state it runs in: paths
normalize to nonempty strings, `update_path` retargets a live record to a
path held by no other live record, and `sync_paths` is not handed the path
of a tombstoned record. -/
def opOk (st : IndexState) : IndexOp → Prop
  | .ensure p => normalizePath p ≠ []
  | .update noteId p => normalizePath p ≠ [] ∧
      (∃ r, lookupKey noteId st.notes = some r ∧ r.deleted = false) ∧
      (∀ id2 r2, lookupKey id2 st.notes = some r2 → r2.deleted = false →
        r2.path = normalizePath p → id2 = noteId)
  | .delById _ => True
  | .delByPath _ => True
  | .sync ps => (∀ p ∈ ps, p ≠ [] → normalizePath p ≠ []) ∧
      (∀ noteId r, lookupKey noteId st.notes = some r → r.deleted = true →
        r.path ∉ normalizedList ps)

/-- Preconditions of a whole operation sequence. -/
def opsOk (st : IndexState) : List IndexOp → Prop
  | [] => True
  | op :: ops => opOk st op ∧ opsOk (applyOp st op) ops

/-! ## String lemmas -/

theorem isPrefixL_iff (needle hay : Str) :
    isPrefixL needle hay = true ↔ ∃ t, hay = needle ++ t := by
  induction needle generalizing hay with
  | nil => simp [isPrefixL]
  | cons a as ih =>
    cases hay with
    | nil => simp [isPrefixL]
    | cons b bs =>
      simp only [isPrefixL, Bool.and_eq_true, beq_iff_eq, ih, List.cons_append,
        List.cons.injEq]
      constructor
      · rintro ⟨rfl, t, rfl⟩; exact ⟨t, rfl, rfl⟩
      · rintro ⟨t, rfl, rfl⟩; exact ⟨rfl, t, rfl⟩

theorem occursIn_iff (needle hay : Str) :
    occursIn needle hay = true ↔ ∃ pre post, hay = pre ++ needle ++ post := by
  induction hay with
  | nil =>
    simp only [occursIn, isPrefixL_iff]
    constructor
    · rintro ⟨t, ht⟩
      exact ⟨[], t, by simpa using ht⟩
    · rintro ⟨pre, post, h⟩
      rcases List.append_eq_nil.mp (List.append_eq_nil.mp h.symm).1 with ⟨h1, h2⟩
      exact ⟨post, by simp [h2, (List.append_eq_nil.mp h.symm).2]⟩
  | cons c t ih =>
    simp only [occursIn, Bool.or_eq_true, isPrefixL_iff, ih]
    constructor
    · rintro (⟨s, hs⟩ | ⟨pre, post, hp⟩)
      · exact ⟨[], s, by simp [hs]⟩
      · exact ⟨c :: pre, post, by simp [hp]⟩
    · rintro ⟨pre, post, hp⟩
      cases pre with
      | nil => exact Or.inl ⟨post, by simpa using hp⟩
      | cons p ps =>
        right
        refine ⟨ps, post, ?_⟩
        have := congrArg List.tail hp
        simpa using this

theorem isPrefixL_append (needle t : Str) : isPrefixL needle (needle ++ t) = true :=
  (isPrefixL_iff needle (needle ++ t)).mpr ⟨t, rfl⟩

/-- `replaceFirst` replaces exactly the first (leftmost) occurrence: the
result splits the haystack at the earliest occurrence of the needle. -/
theorem replaceFirst_spec (needle repl hay : Str)
    (h : occursIn needle hay = true) :
    ∃ pre post, hay = pre ++ needle ++ post ∧
      replaceFirst needle repl hay = pre ++ repl ++ post ∧
      ∀ pre2 post2, hay = pre2 ++ needle ++ post2 → pre.length ≤ pre2.length := by
  induction hay with
  | nil =>
    rcases (occursIn_iff needle []).mp h with ⟨pre, post, hp⟩
    rcases List.append_eq_nil.mp (List.append_eq_nil.mp hp.symm).1 with ⟨h1, h2⟩
    refine ⟨[], [], ?_, ?_, ?_⟩
    · simp [h2, (List.append_eq_nil.mp hp.symm).2]
    · simp [replaceFirst, h2]
    · intro pre2 post2 _; simp
  | cons c t ih =>
    by_cases hpre : isPrefixL needle (c :: t) = true
    · rcases (isPrefixL_iff needle (c :: t)).mp hpre with ⟨s, hs⟩
      refine ⟨[], s, by simpa using hs, ?_, fun pre2 post2 _ => by simp⟩
      simp only [replaceFirst, hpre, if_pos, List.nil_append]
      rw [hs, List.drop_left]
    · have hocc : occursIn needle t = true := by
        rcases (Bool.or_eq_true _ _).mp (by simpa [occursIn] using h) with h' | h'
        · exact absurd h' hpre
        · exact h'
      rcases ih hocc with ⟨pre, post, hsplit, hrepl, hmin⟩
      refine ⟨c :: pre, post, by simp [hsplit], ?_, ?_⟩
      · simp [replaceFirst, hpre, hrepl]
      · intro pre2 post2 hp2
        cases pre2 with
        | nil =>
          exact absurd ((isPrefixL_iff needle (c :: t)).mpr
            ⟨post2, by simpa using hp2⟩) hpre
        | cons p ps =>
          have : t = ps ++ needle ++ post2 := by
            have := congrArg List.tail hp2
            simpa using this
          simpa using Nat.succ_le_succ (hmin ps post2 this)

/-! ## Table lemmas -/

theorem lookupKey_setKey_self {κ α : Type} [DecidableEq κ] (k : κ) (v : α)
    (l : List (κ × α)) : lookupKey k (setKey k v l) = some v := by
  induction l with
  | nil => simp [setKey, lookupKey]
  | cons kv rest ih =>
    obtain ⟨k', v'⟩ := kv
    by_cases h : k' = k
    · subst h; simp [setKey, lookupKey]
    · simp [setKey, lookupKey, h, ih]

theorem lookupKey_setKey_ne {κ α : Type} [DecidableEq κ] (k k2 : κ) (v : α)
    (l : List (κ × α)) (h : k2 ≠ k) :
    lookupKey k2 (setKey k v l) = lookupKey k2 l := by
  have h' : ¬ k = k2 := fun he => h (Eq.symm he)
  induction l with
  | nil => simp [setKey, lookupKey, h']
  | cons kv rest ih =>
    obtain ⟨k', v'⟩ := kv
    by_cases hk : k' = k
    · subst hk; simp [setKey, lookupKey, h']
    · simp only [setKey, if_neg hk, lookupKey]
      by_cases hk2 : k' = k2 <;> simp [hk2, ih]

/-! ## Read/write round trips through extension resolution -/

theorem readNote_ok_iff (fs : FsState) (p c : Str) :
    readNote fs p = .ok c ↔
      validatePath (resolveNotePath fs p) = true ∧
      lookupKey (resolveNotePath fs p) fs = some c := by
  cases hv : validatePath (resolveNotePath fs p) with
  | false => simp [readNote, hv]
  | true => cases hl : lookupKey (resolveNotePath fs p) fs <;> simp [readNote, hl, hv]

theorem txt_ne_md (p : Str) : p ++ ".txt".data ≠ p ++ ".md".data := by
  intro h
  have := List.append_cancel_left h
  simp at this

/-- `_resolve_note_path` with the two supported extensions spelled out. -/
theorem resolveNotePath_eq (fs : FsState) (p : Str) :
    resolveNotePath fs p =
      if hasValidExtension p = true then p
      else if (validatePath (p ++ ".txt".data)
          && (lookupKey (p ++ ".txt".data) fs).isSome) = true then p ++ ".txt".data
      else if (validatePath (p ++ ".md".data)
          && (lookupKey (p ++ ".md".data) fs).isSome) = true then p ++ ".md".data
      else p ++ ".txt".data := by
  by_cases hext : hasValidExtension p = true
  · simp [resolveNotePath, hext]
  · by_cases h1 : (validatePath (p ++ ".txt".data)
        && (lookupKey (p ++ ".txt".data) fs).isSome) = true
    · simp [resolveNotePath, hext, SUPPORTED_EXTENSIONS, List.find?, h1]
    · by_cases h2 : (validatePath (p ++ ".md".data)
          && (lookupKey (p ++ ".md".data) fs).isSome) = true
      · simp [resolveNotePath, hext, SUPPORTED_EXTENSIONS, List.find?, h1, h2]
      · simp [resolveNotePath, hext, SUPPORTED_EXTENSIONS, List.find?, h1, h2]

theorem resolveNotePath_after_write (fs : FsState) (p v : Str)
    (hval : validatePath (resolveNotePath fs p) = true)
    (hsome : (lookupKey (resolveNotePath fs p) fs).isSome = true) :
    resolveNotePath (setKey (resolveNotePath fs p) v fs) p = resolveNotePath fs p := by
  by_cases hext : hasValidExtension p = true
  · conv_lhs => rw [resolveNotePath_eq, if_pos hext]
    rw [resolveNotePath_eq, if_pos hext]
  · by_cases h1 : (validatePath (p ++ ".txt".data)
        && (lookupKey (p ++ ".txt".data) fs).isSome) = true
    · have hres : resolveNotePath fs p = p ++ ".txt".data := by
        rw [resolveNotePath_eq, if_neg hext, if_pos h1]
      rw [hres]
      rw [resolveNotePath_eq, if_neg hext, if_pos]
      rw [Bool.and_eq_true] at h1 ⊢
      exact ⟨h1.1, by rw [lookupKey_setKey_self]; rfl⟩
    · by_cases h2 : (validatePath (p ++ ".md".data)
          && (lookupKey (p ++ ".md".data) fs).isSome) = true
      · have hres : resolveNotePath fs p = p ++ ".md".data := by
          rw [resolveNotePath_eq, if_neg hext, if_neg h1, if_pos h2]
        rw [hres]
        rw [resolveNotePath_eq, if_neg hext, if_neg, if_pos]
        · rw [Bool.and_eq_true] at h2 ⊢
          exact ⟨h2.1, by rw [lookupKey_setKey_self]; rfl⟩
        · rw [lookupKey_setKey_ne _ _ _ _ (txt_ne_md p)]
          exact h1
      · have hres : resolveNotePath fs p = p ++ ".txt".data := by
          rw [resolveNotePath_eq, if_neg hext, if_neg h1, if_neg h2]
        rw [hres] at hval hsome
        rw [Bool.and_eq_true] at h1
        exact absurd ⟨hval, hsome⟩ h1

theorem writeNote_after_read (fs : FsState) (p c newContent : Str)
    (h : readNote fs p = .ok c) :
    writeNote fs p newContent = .ok (setKey (resolveNotePath fs p) newContent fs) ∧
    readNote (setKey (resolveNotePath fs p) newContent fs) p = .ok newContent := by
  obtain ⟨hval, hlook⟩ := (readNote_ok_iff fs p c).mp h
  have hres := resolveNotePath_after_write fs p newContent hval (by simp [hlook])
  constructor
  · simp [writeNote, hval]
  · refine (readNote_ok_iff _ p newContent).mpr ?_
    rw [hres]
    exact ⟨hval, lookupKey_setKey_self _ _ _⟩

/-! ## Index lemmas -/

theorem getById_eq_some_iff (st : IndexState) (noteId : Nat) (p : Str) (r : Nat) :
    getById st noteId = some (p, r) ↔
      ∃ rec, lookupKey noteId st.notes = some rec ∧ rec.deleted = false ∧
        rec.path = p ∧ rec.revision = r := by
  cases h : lookupKey noteId st.notes with
  | none => simp [getById, h]
  | some rec =>
    cases hdel : rec.deleted with
    | false => simp [getById, h, hdel, Prod.ext_iff]
    | true => simp [getById, h, hdel]

theorem incrementRevision_of_getById (st : IndexState) (noteId : Nat) (p : Str) (r : Nat)
    (h : getById st noteId = some (p, r)) :
    (incrementRevision st noteId).1 = some (r + 1) ∧
    getById (incrementRevision st noteId).2 noteId = some (p, r + 1) := by
  obtain ⟨rec, hl, hd, hp, hr⟩ := (getById_eq_some_iff st noteId p r).mp h
  constructor
  · simp [incrementRevision, hl, hd, hr]
  · rw [getById_eq_some_iff]
    refine ⟨{ rec with revision := rec.revision + 1 }, ?_, hd, hp, by rw [hr]⟩
    simp [incrementRevision, hl, hd, lookupKey_setKey_self]

/-! ## Claims about `replace_marker` -/

/-- C1: for an existing, non-tombstoned note whose content contains some
candidate spelling of the marker token, `replace_marker` tries the
candidates in the fixed order (raw; outer `[[` escaped; `[[` and `]]`
escaped; every bracket escaped; duplicates dropped keeping order), replaces
exactly the first occurrence of the first matching candidate with the
replacement text, writes the content back, increments the revision by
exactly 1, and returns status `applied` with the new revision. -/
theorem C1_replaceMarker_applied (st : NotesState) (noteId : Nat)
    (markerToken replacementText notePath content : Str) (revision : Nat)
    (hT : markerToken ≠ [])
    (hId : getById st.index noteId = some (notePath, revision))
    (hRead : readNote st.fs notePath = .ok content)
    (hOcc : ∃ c ∈ markerCandidates markerToken, occursIn c content = true) :
    ∃ matched pre post fs1,
      markerCandidates markerToken =
        dedupSeen [] [markerToken,
          replaceAll "[[".data "\\[\\[".data markerToken,
          replaceAll "]]".data "\\]\\]".data
            (replaceAll "[[".data "\\[\\[".data markerToken),
          replaceAll "]".data "\\]".data
            (replaceAll "[".data "\\[".data markerToken)] ∧
      (markerCandidates markerToken).find? (fun c => occursIn c content)
        = some matched ∧
      content = pre ++ matched ++ post ∧
      (∀ pre2 post2, content = pre2 ++ matched ++ post2 → pre.length ≤ pre2.length) ∧
      replaceMarker st noteId markerToken replacementText =
        (.ok ⟨.applied, noteId, some notePath, some (revision + 1)⟩,
          { fs := fs1, index := (incrementRevision st.index noteId).2 }) ∧
      readNote fs1 notePath = .ok (pre ++ replacementText ++ post) ∧
      getById (incrementRevision st.index noteId).2 noteId
        = some (notePath, revision + 1) := by
  have hfind : ∃ matched,
      (markerCandidates markerToken).find? (fun c => occursIn c content)
        = some matched := by
    rcases hOcc with ⟨c, hc, hocc⟩
    exact Option.isSome_iff_exists.mp
      (List.find?_isSome.mpr ⟨c, hc, by simpa using hocc⟩)
  obtain ⟨matched, hmatched⟩ := hfind
  have hoccm : occursIn matched content = true := by
    simpa using List.find?_some hmatched
  obtain ⟨pre, post, hsplit, hfirst, hmin⟩ :=
    replaceFirst_spec matched replacementText content hoccm
  obtain ⟨hw, hr⟩ := writeNote_after_read st.fs notePath content
    (replaceFirst matched replacementText content) hRead
  obtain ⟨hinc1, hinc2⟩ := incrementRevision_of_getById st.index noteId notePath revision hId
  rcases hix : incrementRevision st.index noteId with ⟨rv, idx2⟩
  rw [hix] at hinc1 hinc2
  simp only at hinc1 hinc2
  subst hinc1
  refine ⟨matched, pre, post,
    setKey (resolveNotePath st.fs notePath)
      (replaceFirst matched replacementText content) st.fs,
    by simp only [markerCandidates, if_neg hT], hmatched, hsplit, hmin, ?_, ?_, ?_⟩
  · simp only [replaceMarker, if_neg hT, hId, hRead, hmatched, hw, hix]
  · rw [← hfirst]
    exact hr
  · simpa using hinc2

/-- C1 witness: the hypotheses are satisfiable (note `n` with content
`a[[m]]b` and the marker `[[m]]`). -/
theorem C1_replaceMarker_applied_witness :
    ∃ matched pre post fs1,
      markerCandidates "[[m]]".data =
        dedupSeen [] ["[[m]]".data,
          replaceAll "[[".data "\\[\\[".data "[[m]]".data,
          replaceAll "]]".data "\\]\\]".data
            (replaceAll "[[".data "\\[\\[".data "[[m]]".data),
          replaceAll "]".data "\\]".data
            (replaceAll "[".data "\\[".data "[[m]]".data)] ∧
      (markerCandidates "[[m]]".data).find? (fun c => occursIn c "a[[m]]b".data)
        = some matched ∧
      "a[[m]]b".data = pre ++ matched ++ post ∧
      (∀ pre2 post2, "a[[m]]b".data = pre2 ++ matched ++ post2 →
        pre.length ≤ pre2.length) ∧
      replaceMarker wNotes 1 "[[m]]".data "X".data =
        (.ok ⟨.applied, 1, some "n".data, some 2⟩,
          { fs := fs1, index := (incrementRevision wNotes.index 1).2 }) ∧
      readNote fs1 "n".data = .ok (pre ++ "X".data ++ post) ∧
      getById (incrementRevision wNotes.index 1).2 1 = some ("n".data, 2) :=
  C1_replaceMarker_applied wNotes 1 "[[m]]".data "X".data "n".data
    "a[[m]]b".data 1 (by decide) (by decide) (by rfl)
    ⟨"[[m]]".data, by decide, by decide⟩

/-- C2: for an existing, non-tombstoned note and a non-empty marker token
none of whose candidate spellings occurs in the content, `replace_marker`
returns `marker_missing` with the note id, path and current revision and
leaves the state (content and index revision) unchanged, so repeated
invocations with the same missing token change nothing. -/
theorem C2_replaceMarker_marker_missing (st : NotesState) (noteId : Nat)
    (markerToken replacementText notePath content : Str) (revision : Nat)
    (hT : markerToken ≠ [])
    (hId : getById st.index noteId = some (notePath, revision))
    (hRead : readNote st.fs notePath = .ok content)
    (hNo : ∀ c ∈ markerCandidates markerToken, occursIn c content = false) :
    replaceMarker st noteId markerToken replacementText =
      (.ok ⟨.markerMissing, noteId, some notePath, some revision⟩, st) := by
  have hfind : (markerCandidates markerToken).find? (fun c => occursIn c content)
      = none :=
    List.find?_eq_none.mpr (fun x hx => by simp [hNo x hx])
  simp only [replaceMarker, if_neg hT, hId, hRead, hfind]

/-- C2 witness: marker `[[z]]` has no candidate spelling inside `a[[m]]b`. -/
theorem C2_replaceMarker_marker_missing_witness :
    replaceMarker wNotes 1 "[[z]]".data "X".data =
      (.ok ⟨.markerMissing, 1, some "n".data, some 1⟩, wNotes) :=
  C2_replaceMarker_marker_missing wNotes 1 "[[z]]".data "X".data "n".data
    "a[[m]]b".data 1 (by decide) (by decide) (by rfl) (by decide)

/-- C10: `replace_marker` with an empty marker token raises `ValueError`
before any lookup and leaves the whole state unchanged. -/
theorem C10_replaceMarker_empty_token (st : NotesState) (noteId : Nat)
    (replacementText : Str) :
    replaceMarker st noteId [] replacementText =
      (.error (.valueError "marker_token is required".data), st) := by
  simp [replaceMarker]

theorem hasValidExtension_resolveNotePath (fs : FsState) (p : Str) :
    hasValidExtension (resolveNotePath fs p) = true := by
  have htxt : ∀ x : Str, hasValidExtension (x ++ ".txt".data) = true := fun x => by
    simp [hasValidExtension, SUPPORTED_EXTENSIONS, List.isSuffixOf_iff_suffix,
      List.suffix_append]
  have hmd : ∀ x : Str, hasValidExtension (x ++ ".md".data) = true := fun x => by
    simp [hasValidExtension, SUPPORTED_EXTENSIONS, List.isSuffixOf_iff_suffix,
      List.suffix_append]
  rw [resolveNotePath_eq]
  by_cases hext : hasValidExtension p = true
  · simpa [hext] using hext
  · simp only [hext, if_false]
    by_cases h1 : (validatePath (p ++ ".txt".data)
        && (lookupKey (p ++ ".txt".data) fs).isSome) = true
    · simp [h1, htxt]
    · by_cases h2 : (validatePath (p ++ ".md".data)
          && (lookupKey (p ++ ".md".data) fs).isSome) = true
      · simp [h1, h2, hmd]
      · simp [h1, h2, htxt]

theorem resolveNotePath_of_hasValidExtension (fs : FsState) (p : Str)
    (h : hasValidExtension p = true) : resolveNotePath fs p = p := by
  rw [resolveNotePath_eq, if_pos h]

/-- `_ensure_path_locked` is a no-op on a path mapped to a live record. -/
theorem ensurePathLocked_live (st : IndexState) (path : Str) (noteId : Nat)
    (rec : NoteRecord)
    (hPid : lookupKey path st.pathToId = some noteId)
    (hRec : lookupKey noteId st.notes = some rec)
    (hDel : rec.deleted = false) :
    ensurePathLocked st path = ((noteId, rec.revision), st) := by
  simp [ensurePathLocked, hPid, hRec, hDel]

theorem lookupKey_isSome_setKey {κ α : Type} [DecidableEq κ] (k a : κ) (v : α)
    (l : List (κ × α)) (h : (lookupKey a l).isSome = true) :
    (lookupKey a (setKey k v l)).isSome = true := by
  by_cases hk : a = k
  · subst hk; rw [lookupKey_setKey_self]; rfl
  · rw [lookupKey_setKey_ne _ _ _ _ hk]; exact h

theorem noteExistsLoop_true_setKey (fs : FsState) (p k v : Str) (exts : List Str)
    (h : noteExistsLoop fs p exts = some true) :
    noteExistsLoop (setKey k v fs) p exts = some true := by
  induction exts with
  | nil => simp [noteExistsLoop] at h
  | cons ext rest ih =>
    by_cases hv : validatePath (p ++ ext) = false
    · simp [noteExistsLoop, hv] at h
    · by_cases hl : (lookupKey (p ++ ext) (setKey k v fs)).isSome = true
      · simp [noteExistsLoop, hv, hl]
      · have hl0 : ¬ (lookupKey (p ++ ext) fs).isSome = true := by
          intro hc
          exact hl (lookupKey_isSome_setKey k _ v fs hc)
        simp only [noteExistsLoop, hv, if_false, hl0, hl, if_neg] at h ⊢
        simpa using ih (by simpa [Bool.not_eq_true] using h)

theorem noteExists_setKey (fs : FsState) (p k v : Str)
    (h : noteExists fs p = true) : noteExists (setKey k v fs) p = true := by
  by_cases hve : hasValidExtension p = false
  · simp only [noteExists, if_pos hve] at h ⊢
    cases hl : noteExistsLoop fs p SUPPORTED_EXTENSIONS with
    | none => simp [hl] at h
    | some b =>
      cases b with
      | false => simp [hl] at h
      | true => simp [noteExistsLoop_true_setKey fs p k v _ hl]
  · simp only [noteExists, if_neg hve] at h ⊢
    by_cases hv : validatePath p = false
    · simp [hv] at h
    · simp only [if_neg hv] at h ⊢
      exact lookupKey_isSome_setKey k p v fs h

/-- C6: for an existing note with a live index record, `update_note` with a
stale `expected_revision` fails with a `RevisionConflict` carrying
`note_id`, `expected_revision` and `current_revision` and leaves the state
unchanged, while `update_note` with the current revision writes the content
and increments the revision by exactly 1, so that repeating the update with
the now-stale revision reports a conflict whose `current_revision` is one
higher. -/
theorem C6_updateNote (st : NotesState)
    (notePath canonical oldContent newContent newContent2 : Str)
    (noteId : Nat) (rec : NoteRecord)
    (hCanon : stripExtension (resolveNotePath st.fs notePath) = canonical)
    (hRR : resolveNotePath st.fs canonical = resolveNotePath st.fs notePath)
    (hEx : noteExists st.fs notePath = true)
    (hNorm : normalizePath canonical = canonical)
    (hPid : lookupKey canonical st.index.pathToId = some noteId)
    (hRec : lookupKey noteId st.index.notes = some rec)
    (hDel : rec.deleted = false)
    (hPath : rec.path = canonical)
    (hRead : readNote st.fs canonical = .ok oldContent) :
    (∀ expected : Int, expected ≠ (rec.revision : Int) →
      updateNote st notePath newContent (some expected) =
        (.error (.revisionConflict noteId expected rec.revision), st)) ∧
    ∃ st2 : NotesState,
      updateNote st notePath newContent (some (rec.revision : Int)) =
        (.ok ⟨noteId, canonical, newContent, rec.revision + 1⟩, st2) ∧
      readNote st2.fs canonical = .ok newContent ∧
      getById st2.index noteId = some (canonical, rec.revision + 1) ∧
      updateNote st2 notePath newContent2 (some (rec.revision : Int)) =
        (.error (.revisionConflict noteId (rec.revision : Int) (rec.revision + 1)), st2) := by
  have hEnsure : ensurePath st.index canonical = ((noteId, rec.revision), st.index) := by
    rw [ensurePath, hNorm]
    exact ensurePathLocked_live _ _ _ _ hPid hRec hDel
  obtain ⟨hval1, hlook1⟩ := (readNote_ok_iff st.fs canonical oldContent).mp hRead
  obtain ⟨hw, hr⟩ := writeNote_after_read st.fs canonical oldContent newContent hRead
  have hix : incrementRevision st.index noteId =
      (some (rec.revision + 1),
        { st.index with
          notes := setKey noteId { rec with revision := rec.revision + 1 } st.index.notes }) := by
    simp [incrementRevision, hRec, hDel]
  set idx2 : IndexState :=
    { st.index with
      notes := setKey noteId { rec with revision := rec.revision + 1 } st.index.notes } with hidx2
  set fs2 : FsState := setKey (resolveNotePath st.fs canonical) newContent st.fs with hfs2
  have hRec2 : lookupKey noteId idx2.notes =
      some { rec with revision := rec.revision + 1 } := by
    rw [hidx2]
    exact lookupKey_setKey_self _ _ _
  have hGet2 : getById idx2 noteId = some (canonical, rec.revision + 1) := by
    rw [getById_eq_some_iff]
    exact ⟨{ rec with revision := rec.revision + 1 }, hRec2, by simpa using hDel,
      by simpa using hPath, rfl⟩
  have hEnsure2 : ensurePath idx2 canonical = ((noteId, rec.revision + 1), idx2) := by
    rw [ensurePath, hNorm]
    exact ensurePathLocked_live _ _ _ _ (by rw [hidx2]; exact hPid) hRec2 hDel
  have hstab : resolveNotePath fs2 canonical = resolveNotePath st.fs canonical := by
    rw [hfs2]
    exact resolveNotePath_after_write st.fs canonical newContent hval1 (by simp [hlook1])
  have hread2 : readNote fs2 (resolveNotePath st.fs canonical) = .ok newContent := by
    rw [readNote_ok_iff,
      resolveNotePath_of_hasValidExtension _ _ (hasValidExtension_resolveNotePath st.fs canonical)]
    exact ⟨hval1, by rw [hfs2]; exact lookupKey_setKey_self _ _ _⟩
  have hstabN : resolveNotePath fs2 notePath = resolveNotePath st.fs notePath := by
    rw [hfs2, hRR]
    exact resolveNotePath_after_write st.fs notePath newContent
      (by rw [← hRR]; exact hval1) (by rw [← hRR]; simp [hlook1])
  have hExPos : ¬ noteExists st.fs notePath = false := by simp [hEx]
  constructor
  · intro expected hNe
    simp only [updateNote, if_neg hExPos, hCanon, hEnsure, if_pos hNe]
  · refine ⟨{ fs := fs2, index := idx2 }, ?_, ?_, hGet2, ?_⟩
    · have hNe' : ¬ ((rec.revision : Int) ≠ (rec.revision : Int)) := by simp
      have hread2' : readNote fs2 (resolveNotePath st.fs notePath) = .ok newContent := by
        rw [← hRR]
        exact hread2
      simp only [updateNote, if_neg hExPos, hCanon, hEnsure, if_neg hNe', hw, ← hfs2,
        hix, getNoteById, hGet2, buildNoteDict, hstab, hRR, hread2', hCanon, hEnsure2]
    · rw [show ({ fs := fs2, index := idx2 } : NotesState).fs = fs2 from rfl, hfs2]
      exact hr
    · have hEx2 : ¬ noteExists fs2 notePath = false := by
        rw [hfs2, hRR]
        simp [noteExists_setKey _ _ _ _ hEx]
      have hNe2 : ((rec.revision : Int) ≠ ((rec.revision + 1 : Nat) : Int)) := by
        push_cast
        omega
      simp only [updateNote, if_neg hEx2, hstabN, hCanon, hEnsure2, if_pos hNe2]

/-- C6 witness: the one-note world at revision 1; a stale update with
`expected_revision = 7` conflicts, and the revision-1 update bumps to 2. -/
theorem C6_updateNote_witness :
    (∀ expected : Int, expected ≠ ((1 : Nat) : Int) →
      updateNote wNotes "n".data "hi".data (some expected) =
        (.error (.revisionConflict 1 expected 1), wNotes)) ∧
    ∃ st2 : NotesState,
      updateNote wNotes "n".data "hi".data (some ((1 : Nat) : Int)) =
        (.ok ⟨1, "n".data, "hi".data, 2⟩, st2) ∧
      readNote st2.fs "n".data = .ok "hi".data ∧
      getById st2.index 1 = some ("n".data, 2) ∧
      updateNote st2 "n".data "ho".data (some ((1 : Nat) : Int)) =
        (.error (.revisionConflict 1 ((1 : Nat) : Int) 2), st2) :=
  C6_updateNote wNotes "n".data "n".data "a[[m]]b".data "hi".data "ho".data 1
    ⟨"n".data, 1, false⟩ (by decide) (by decide) (by decide) (by decide)
    (by decide) (by decide) (by decide) (by decide) (by rfl)

/-- C3: when a job run raises an error whose message matches one of the
transient needles (case-insensitive substring) and the attempts count is at
most `retry_max`, the failure handler re-queues the job with status
`queued`, error code `transient_error`, an availability delay of
`retry_base_ms * 2 ^ (attempts - 1)` milliseconds, and does not delete the
temp audio file (nor touch the notes). -/
theorem C3_transient_retry (settings : TxSettings) (now : ℚ) (nowSec : Nat)
    (w : EngineWorld) (jobId : Nat) (message : Str) (job : Job)
    (hJob : lookupKey jobId w.engine.jobs = some job)
    (hTrans : isTransientError message = true)
    (hAtt : (job.attempts : Int) ≤ settings.retryMax)
    (hBase : 0 < settings.retryBaseMs) :
    ∃ st' : EngineState,
      handleRunFailure settings now nowSec w jobId message = { w with engine := st' } ∧
      lookupKey jobId st'.jobs = some
        { job with
          status := .queued,
          errorCode := some "transient_error".data,
          errorMsg := some message,
          availableAt :=
            now + ((settings.retryBaseMs * 2 ^ (job.attempts - 1) : Int) : ℚ) / 1000 } ∧
      jobId ∈ st'.queue ∧
      st'.queue =
        (if jobId ∈ w.engine.queue then w.engine.queue else w.engine.queue ++ [jobId]) ∧
      ({ w with engine := st' } : EngineWorld).tempFiles = w.tempFiles ∧
      ({ w with engine := st' } : EngineWorld).notes = w.notes := by
  have hDelay : (0 : Int) < settings.retryBaseMs * 2 ^ (job.attempts - 1) :=
    mul_pos hBase (pow_pos (by norm_num) _)
  refine ⟨{ w.engine with
      jobs := setKey jobId
        { job with
          status := .queued,
          errorCode := some "transient_error".data,
          errorMsg := some message,
          availableAt :=
            now + ((settings.retryBaseMs * 2 ^ (job.attempts - 1) : Int) : ℚ) / 1000 }
        (setKey jobId
          { job with
            errorCode := some "transient_error".data,
            errorMsg := some message } w.engine.jobs),
      queue := if jobId ∈ w.engine.queue then w.engine.queue
               else w.engine.queue ++ [jobId] }, ?_, ?_, ?_, rfl, rfl, rfl⟩
  · simp only [handleRunFailure, hJob, if_pos (And.intro hTrans hAtt), queueJobLocked,
      lookupKey_setKey_self, if_pos hDelay]
  · exact lookupKey_setKey_self _ _ _
  · by_cases hq : jobId ∈ w.engine.queue <;> simp [hq]

/-- C3 witness: the running job of `wWorld` failing with `network timeout`
at attempt 1 under the default settings. -/
theorem C3_transient_retry_witness :
    ∃ st' : EngineState,
      handleRunFailure wSettings 0 0 wWorld 1 "network timeout".data =
        { wWorld with engine := st' } ∧
      lookupKey 1 st'.jobs = some
        { wJob with
          status := .queued,
          errorCode := some "transient_error".data,
          errorMsg := some "network timeout".data,
          availableAt :=
            0 + ((wSettings.retryBaseMs * 2 ^ (wJob.attempts - 1) : Int) : ℚ) / 1000 } ∧
      (1 : Nat) ∈ st'.queue ∧
      st'.queue =
        (if (1 : Nat) ∈ wWorld.engine.queue then wWorld.engine.queue
         else wWorld.engine.queue ++ [1]) ∧
      ({ wWorld with engine := st' } : EngineWorld).tempFiles = wWorld.tempFiles ∧
      ({ wWorld with engine := st' } : EngineWorld).notes = wWorld.notes :=
  C3_transient_retry wSettings 0 0 wWorld 1 "network timeout".data wJob
    (by decide) (by decide) (by decide) (by decide)

/-- C7: `create_job` is rejected with the "queue full" error exactly when
the number of jobs with status in {queued, running, cancel_requested,
interrupted} is at least `max_queued_jobs`, and such a rejection leaves the
job table, ready-queue and (write-through) snapshot state unchanged. -/
theorem C7_createJob_queue_full (settings : TxSettings) (now : ℚ) (nowSec : Nat)
    (st : EngineState) (notes : NotesState)
    (audioPath sourceFilename : Str) (noteId : Nat) (markerToken launchSource : Str) :
    ((createJob settings now nowSec st notes audioPath sourceFilename noteId
        markerToken launchSource).1 = .error "Transcription queue is full".data ↔
      settings.maxQueuedJobs ≤ (activeQueuedCount st : Int)) ∧
    (settings.maxQueuedJobs ≤ (activeQueuedCount st : Int) →
      createJob settings now nowSec st notes audioPath sourceFilename noteId
          markerToken launchSource =
        (.error "Transcription queue is full".data, st)) := by
  by_cases hfull : settings.maxQueuedJobs ≤ (activeQueuedCount st : Int)
  · constructor
    · simp [createJob, if_pos hfull, hfull]
    · intro _
      simp [createJob, if_pos hfull]
  · refine ⟨?_, fun h => absurd h hfull⟩
    simp only [createJob, if_neg hfull]
    cases hres : resolvePath notes.index noteId with
    | none => simpa using hfull
    | some notePath => simp [hfull]

/-- C7 witness: with `max_queued_jobs = 1` and one queued job the next
admission is rejected and the state is untouched; conversely the empty
engine admits. -/
theorem C7_createJob_queue_full_witness :
    ((createJob { wSettings with maxQueuedJobs := 1 } 0 0
        { jobs := [(1, { wJob with status := .queued })], queue := [1], nextJobId := 2 }
        wNotes "b.wav".data "b.wav".data 1 "[[m]]".data "drop".data).1 =
      .error "Transcription queue is full".data ↔
      (1 : Int) ≤ (activeQueuedCount
        { jobs := [(1, { wJob with status := .queued })], queue := [1], nextJobId := 2 }
          : Int)) ∧
    ((1 : Int) ≤ (activeQueuedCount
        { jobs := [(1, { wJob with status := .queued })], queue := [1], nextJobId := 2 }
          : Int) →
      createJob { wSettings with maxQueuedJobs := 1 } 0 0
        { jobs := [(1, { wJob with status := .queued })], queue := [1], nextJobId := 2 }
        wNotes "b.wav".data "b.wav".data 1 "[[m]]".data "drop".data =
      (.error "Transcription queue is full".data,
        { jobs := [(1, { wJob with status := .queued })], queue := [1], nextJobId := 2 })) :=
  C7_createJob_queue_full { wSettings with maxQueuedJobs := 1 } 0 0
    { jobs := [(1, { wJob with status := .queued })], queue := [1], nextJobId := 2 }
    wNotes "b.wav".data "b.wav".data 1 "[[m]]".data "drop".data

/-! ## Engine lemmas: recovery and pruning -/

theorem lookupKey_map_value {κ α β : Type} [DecidableEq κ] (id : κ) (f : α → β)
    (l : List (κ × α)) :
    lookupKey id (l.map (fun e => (e.1, f e.2))) = (lookupKey id l).map f := by
  induction l with
  | nil => simp [lookupKey]
  | cons e rest ih =>
    by_cases h : e.1 = id <;> simp [lookupKey, h, ih]

theorem lookupKey_delKey_ne {κ α : Type} [DecidableEq κ] (k id : κ) (l : List (κ × α))
    (h : id ≠ k) : lookupKey id (delKey k l) = lookupKey id l := by
  induction l with
  | nil => simp [delKey]
  | cons e rest ih =>
    obtain ⟨k', v'⟩ := e
    by_cases hk : k' = k
    · subst hk
      have hki : ¬ k' = id := Ne.symm h
      simp [delKey, lookupKey, hki]
    · simp only [delKey, if_neg hk, lookupKey]
      by_cases hid : k' = id
      · simp [hid]
      · simp [hid, ih]

theorem lookupKey_eq_none_of_notin {κ α : Type} [DecidableEq κ] (a : κ)
    (l : List (κ × α)) (h : a ∉ l.map Prod.fst) : lookupKey a l = none := by
  induction l with
  | nil => simp [lookupKey]
  | cons e rest ih =>
    simp only [List.map_cons, List.mem_cons, not_or] at h
    have hne : ¬ e.1 = a := fun he => h.1 he.symm
    obtain ⟨k', v'⟩ := e
    simp only at hne
    simp [lookupKey, hne, ih h.2]

theorem lookupKey_delKey_self {κ α : Type} [DecidableEq κ] (k : κ) (l : List (κ × α))
    (hnd : (l.map Prod.fst).Nodup) : lookupKey k (delKey k l) = none := by
  induction l with
  | nil => simp [delKey, lookupKey]
  | cons e rest ih =>
    obtain ⟨k', v'⟩ := e
    simp only [List.map_cons, List.nodup_cons] at hnd
    by_cases hk : k' = k
    · subst hk
      simp only [delKey, if_pos rfl]
      exact lookupKey_eq_none_of_notin k' rest hnd.1
    · simp [delKey, hk, lookupKey, ih hnd.2]

theorem mem_keys_delKey {κ α : Type} [DecidableEq κ] (k a : κ) (l : List (κ × α))
    (h : a ∈ (delKey k l).map Prod.fst) : a ∈ l.map Prod.fst := by
  induction l with
  | nil => simp [delKey] at h
  | cons e rest ih =>
    obtain ⟨k', v'⟩ := e
    by_cases hk : k' = k
    · subst hk
      rw [show delKey k' ((k', v') :: rest) = rest from by simp [delKey]] at h
      simp [h]
    · simp only [delKey, if_neg hk, List.map_cons, List.mem_cons] at h
      rcases h with h | h
      · simp [h]
      · simp [ih h]

theorem nodup_keys_delKey {κ α : Type} [DecidableEq κ] (k : κ) (l : List (κ × α))
    (hnd : (l.map Prod.fst).Nodup) : ((delKey k l).map Prod.fst).Nodup := by
  induction l with
  | nil => simpa [delKey] using hnd
  | cons e rest ih =>
    obtain ⟨k', v'⟩ := e
    simp only [List.map_cons, List.nodup_cons] at hnd
    by_cases hk : k' = k
    · simpa [delKey, hk] using hnd.2
    · simp only [delKey, if_neg hk, List.map_cons, List.nodup_cons]
      exact ⟨fun hc => hnd.1 (mem_keys_delKey k k' rest hc), ih hnd.2⟩

theorem lookupKey_of_mem_nodup {κ α : Type} [DecidableEq κ] (a : κ) (b : α)
    (l : List (κ × α)) (hnd : (l.map Prod.fst).Nodup) (hmem : (a, b) ∈ l) :
    lookupKey a l = some b := by
  induction l with
  | nil => simp at hmem
  | cons e rest ih =>
    obtain ⟨k', v'⟩ := e
    simp only [List.map_cons, List.nodup_cons] at hnd
    rcases List.mem_cons.mp hmem with he | he
    · obtain ⟨rfl, rfl⟩ := Prod.mk.injEq .. ▸ he
      simp [lookupKey]
    · have hne : ¬ k' = a := by
        intro hka
        subst hka
        exact hnd.1 (List.mem_map.mpr ⟨(k', b), he, rfl⟩)
      simp [lookupKey, hne, ih hnd.2 he]

theorem mem_removeFirst_of_ne {α : Type} [DecidableEq α] (x y : α) (l : List α)
    (hxy : x ≠ y) (h : x ∈ l) : x ∈ removeFirst y l := by
  induction l with
  | nil => simp at h
  | cons z rest ih =>
    by_cases hz : z = y
    · subst hz
      rcases List.mem_cons.mp h with rfl | h
      · exact absurd rfl hxy
      · simpa [removeFirst] using h
    · rcases List.mem_cons.mp h with rfl | h
      · simp [removeFirst, hz]
      · simp [removeFirst, hz, ih h]

theorem removeJobs_foldl_lookup {ids : List Nat} :
    ∀ (st : EngineState) (id : Nat) (j : Job),
    (st.jobs.map Prod.fst).Nodup →
    lookupKey id (ids.foldl removeJobLocked st).jobs = some j →
    lookupKey id st.jobs = some j := by
  induction ids with
  | nil => intro st id j _ h; simpa using h
  | cons i rest ih =>
    intro st id j hnd h
    have h1 := ih (removeJobLocked st i) id j
      (by simpa [removeJobLocked] using nodup_keys_delKey i st.jobs hnd)
      (by simpa using h)
    by_cases hii : id = i
    · subst hii
      rw [show (removeJobLocked st id).jobs = delKey id st.jobs from rfl,
        lookupKey_delKey_self id st.jobs hnd] at h1
      exact absurd h1 (by simp)
    · rwa [show (removeJobLocked st i).jobs = delKey i st.jobs from rfl,
        lookupKey_delKey_ne i id st.jobs hii] at h1

theorem removeJobs_foldl_preserve {ids : List Nat} :
    ∀ (st : EngineState) (id : Nat) (j : Job),
    (∀ i ∈ ids, i ≠ id) →
    lookupKey id st.jobs = some j →
    lookupKey id (ids.foldl removeJobLocked st).jobs = some j := by
  induction ids with
  | nil => intro st id j _ h; simpa using h
  | cons i rest ih =>
    intro st id j hni h
    refine ih (removeJobLocked st i) id j (fun x hx => hni x (by simp [hx])) ?_
    rw [show (removeJobLocked st i).jobs = delKey i st.jobs from rfl,
      lookupKey_delKey_ne i id st.jobs (fun he => hni i (by simp) he.symm)]
    exact h

theorem removeJobs_foldl_queue {ids : List Nat} :
    ∀ (st : EngineState) (x : Nat),
    (∀ i ∈ ids, i ≠ x) → x ∈ st.queue →
    x ∈ (ids.foldl removeJobLocked st).queue := by
  induction ids with
  | nil => intro st x _ h; simpa using h
  | cons i rest ih =>
    intro st x hni h
    refine ih (removeJobLocked st i) x (fun y hy => hni y (by simp [hy])) ?_
    exact mem_removeFirst_of_ne x i st.queue
      (fun he => hni i (by simp) he.symm) h

theorem removeJobs_foldl_nodup {ids : List Nat} :
    ∀ (st : EngineState), (st.jobs.map Prod.fst).Nodup →
    (((ids.foldl removeJobLocked st).jobs.map Prod.fst)).Nodup := by
  induction ids with
  | nil => intro st h; simpa using h
  | cons i rest ih =>
    intro st hnd
    exact ih (removeJobLocked st i)
      (by simpa [removeJobLocked] using nodup_keys_delKey i st.jobs hnd)

theorem mem_insertDescTime (x y : Nat × Nat) (l : List (Nat × Nat)) :
    x ∈ insertDescTime y l ↔ x = y ∨ x ∈ l := by
  induction l with
  | nil => simp [insertDescTime]
  | cons z rest ih =>
    by_cases h : z.2 ≤ y.2 <;> simp [insertDescTime, h, ih] <;> tauto

theorem mem_sortDescByTime (x : Nat × Nat) (l : List (Nat × Nat)) :
    x ∈ sortDescByTime l ↔ x ∈ l := by
  induction l with
  | nil => simp [sortDescByTime]
  | cons y rest ih => simp [sortDescByTime, mem_insertDescTime, ih]

theorem mem_pruneExpiredIds (settings : TxSettings) (nowSec : Nat) (st : EngineState)
    (i : Nat) (h : i ∈ pruneExpiredIds settings nowSec st) :
    ∃ j', (i, j') ∈ st.jobs ∧ isTerminal j'.status = true := by
  simp only [pruneExpiredIds, List.mem_map] at h
  obtain ⟨e, he, rfl⟩ := h
  rw [List.mem_filter] at he
  exact ⟨e.2, by simpa using he.1, (Bool.and_eq_true _ _ |>.mp he.2).1⟩

theorem mem_pruneExcessIds (settings : TxSettings) (st1 : EngineState)
    (i : Nat) (h : i ∈ pruneExcessIds settings st1) :
    ∃ j', (i, j') ∈ st1.jobs ∧ isTerminal j'.status = true := by
  simp only [pruneExcessIds, List.mem_map] at h
  obtain ⟨e, he, rfl⟩ := h
  have he2 := List.mem_of_mem_drop he
  rw [mem_sortDescByTime, List.mem_map] at he2
  obtain ⟨e2, he2, hee⟩ := he2
  rw [List.mem_filter] at he2
  refine ⟨e2.2, ?_, he2.2⟩
  have : e2.1 = e.1 := congrArg Prod.fst hee
  rw [← this]
  simpa using he2.1

theorem foldl_remove_terminal_preserve (st : EngineState) (ids : List Nat)
    (id : Nat) (j : Job)
    (hnd : (st.jobs.map Prod.fst).Nodup)
    (h : lookupKey id st.jobs = some j)
    (hterm : isTerminal j.status = false)
    (hids : ∀ i ∈ ids, ∃ j', (i, j') ∈ st.jobs ∧ isTerminal j'.status = true) :
    lookupKey id (ids.foldl removeJobLocked st).jobs = some j ∧
    (id ∈ st.queue → id ∈ (ids.foldl removeJobLocked st).queue) ∧
    (((ids.foldl removeJobLocked st).jobs.map Prod.fst)).Nodup := by
  have hni : ∀ i ∈ ids, i ≠ id := by
    intro i hi hii
    subst hii
    obtain ⟨j', hmem, hterm'⟩ := hids i hi
    rw [lookupKey_of_mem_nodup _ _ _ hnd hmem] at h
    cases h
    rw [hterm'] at hterm
    cases hterm
  exact ⟨removeJobs_foldl_preserve st id j hni h,
    fun hq => removeJobs_foldl_queue st id hni hq,
    removeJobs_foldl_nodup st hnd⟩

theorem pruneHistoryLocked_preserve (settings : TxSettings) (nowSec : Nat)
    (st : EngineState) (id : Nat) (j : Job)
    (hnd : (st.jobs.map Prod.fst).Nodup)
    (h : lookupKey id st.jobs = some j)
    (hterm : isTerminal j.status = false) :
    lookupKey id (pruneHistoryLocked settings nowSec st).jobs = some j ∧
    (id ∈ st.queue → id ∈ (pruneHistoryLocked settings nowSec st).queue) ∧
    (((pruneHistoryLocked settings nowSec st).jobs.map Prod.fst)).Nodup := by
  obtain ⟨h1, hq1, hnd1⟩ := foldl_remove_terminal_preserve st
    (pruneExpiredIds settings nowSec st) id j hnd h hterm
    (fun i hi => mem_pruneExpiredIds settings nowSec st i hi)
  obtain ⟨h2, hq2, hnd2⟩ := foldl_remove_terminal_preserve
    ((pruneExpiredIds settings nowSec st).foldl removeJobLocked st)
    (pruneExcessIds settings ((pruneExpiredIds settings nowSec st).foldl removeJobLocked st))
    id j hnd1 h1 hterm
    (fun i hi => mem_pruneExcessIds settings _ i hi)
  exact ⟨h2, fun hq => hq2 (hq1 hq), hnd2⟩

theorem pruneHistoryLocked_sound (settings : TxSettings) (nowSec : Nat)
    (st : EngineState) (id : Nat) (j : Job)
    (hnd : (st.jobs.map Prod.fst).Nodup)
    (h : lookupKey id (pruneHistoryLocked settings nowSec st).jobs = some j) :
    lookupKey id st.jobs = some j := by
  have hnd1 : ((((pruneExpiredIds settings nowSec st).foldl removeJobLocked
      st).jobs.map Prod.fst)).Nodup := removeJobs_foldl_nodup st hnd
  have h1 := removeJobs_foldl_lookup
    ((pruneExpiredIds settings nowSec st).foldl removeJobLocked st) id j hnd1 h
  exact removeJobs_foldl_lookup st id j hnd h1

theorem recoverJobLoop_cons (auto : Bool) (retryMax : Int) (now : ℚ)
    (jobId : Nat) (job : Job) (rest : List (Nat × Job)) (queue : List Nat) :
    recoverJobLoop auto retryMax now ((jobId, job) :: rest) queue =
      ((jobId, recoverJob auto retryMax now job) ::
        (recoverJobLoop auto retryMax now rest
          (if (job.status = .running ∨ job.status = .cancelRequested) ∧
              (auto ∧ (job.restartRequeues : Int) < 1 ∧
                (job.attempts : Int) ≤ retryMax)
            then (if jobId ∈ queue then queue else queue ++ [jobId])
            else queue)).1,
       (recoverJobLoop auto retryMax now rest
          (if (job.status = .running ∨ job.status = .cancelRequested) ∧
              (auto ∧ (job.restartRequeues : Int) < 1 ∧
                (job.attempts : Int) ≤ retryMax)
            then (if jobId ∈ queue then queue else queue ++ [jobId])
            else queue)).2) := by
  by_cases hrun : job.status = .running ∨ job.status = .cancelRequested
  · by_cases hreq : auto = true ∧ ((job.restartRequeues : Int) < 1) ∧
        ((job.attempts : Int) ≤ retryMax)
    · rcases hlp : recoverJobLoop auto retryMax now rest
          (if jobId ∈ queue then queue else queue ++ [jobId]) with ⟨rest', queue2⟩
      simp only [recoverJobLoop, if_pos hrun, if_pos hreq,
        if_pos (And.intro hrun hreq), hlp, recoverJob]
    · rcases hlp : recoverJobLoop auto retryMax now rest queue with ⟨rest', queue2⟩
      have hc : ¬ ((job.status = .running ∨ job.status = .cancelRequested) ∧
          (auto = true ∧ (job.restartRequeues : Int) < 1 ∧
            (job.attempts : Int) ≤ retryMax)) := fun hx => hreq hx.2
      simp only [recoverJobLoop, if_pos hrun, if_neg hreq, if_neg hc, hlp, recoverJob]
  · rcases hlp : recoverJobLoop auto retryMax now rest queue with ⟨rest', queue2⟩
    have hc : ¬ ((job.status = .running ∨ job.status = .cancelRequested) ∧
        (auto = true ∧ (job.restartRequeues : Int) < 1 ∧
          (job.attempts : Int) ≤ retryMax)) := fun hx => hrun hx.1
    simp only [recoverJobLoop, if_neg hrun, if_neg hc, hlp, recoverJob]

theorem recoverJobLoop_spec (auto : Bool) (retryMax : Int) (now : ℚ) :
    ∀ (jobs : List (Nat × Job)) (queue : List Nat),
    (recoverJobLoop auto retryMax now jobs queue).1 =
      jobs.map (fun e => (e.1, recoverJob auto retryMax now e.2)) ∧
    (∀ x ∈ queue, x ∈ (recoverJobLoop auto retryMax now jobs queue).2) ∧
    (∀ e ∈ jobs, (e.2.status = .running ∨ e.2.status = .cancelRequested) →
      (auto = true ∧ (e.2.restartRequeues : Int) < 1 ∧
        (e.2.attempts : Int) ≤ retryMax) →
      e.1 ∈ (recoverJobLoop auto retryMax now jobs queue).2) := by
  intro jobs
  induction jobs with
  | nil => intro queue; simp [recoverJobLoop]
  | cons e rest ih =>
    intro queue
    obtain ⟨jobId, job⟩ := e
    rw [recoverJobLoop_cons]
    refine ⟨?_, ?_, ?_⟩
    · simp [(ih _).1]
    · intro x hx
      apply (ih _).2.1
      split_ifs <;> simp [hx]
    · intro e2 he2 hrun2 hreq2
      rcases List.mem_cons.mp he2 with heq | he2
      · have h1 : e2.1 = jobId := congrArg Prod.fst heq
        have h2 : e2.2 = job := congrArg Prod.snd heq
        rw [h2] at hrun2 hreq2
        rw [h1]
        simp only [if_pos (And.intro hrun2 hreq2)]
        apply (ih _).2.1
        by_cases hmem : jobId ∈ queue <;> simp [hmem]
      · exact (ih _).2.2 e2 he2 hrun2 hreq2

theorem recoverJob_requeue (auto : Bool) (retryMax : Int) (now : ℚ) (job : Job)
    (h1 : job.status = .running ∨ job.status = .cancelRequested)
    (h2 : auto = true ∧ (job.restartRequeues : Int) < 1 ∧
      (job.attempts : Int) ≤ retryMax) :
    recoverJob auto retryMax now job =
      { job with
        status := .queued,
        errorCode := some "restart_interrupted".data,
        errorMsg := some "Job interrupted by backend restart".data,
        restartRequeues := job.restartRequeues + 1,
        availableAt := now } := by
  simp only [recoverJob, if_pos h1, if_pos h2]

theorem recoverJob_interrupted (auto : Bool) (retryMax : Int) (now : ℚ) (job : Job)
    (h1 : job.status = .running ∨ job.status = .cancelRequested)
    (h2 : ¬ (auto = true ∧ (job.restartRequeues : Int) < 1 ∧
      (job.attempts : Int) ≤ retryMax)) :
    recoverJob auto retryMax now job =
      { job with
        status := .interrupted,
        errorCode := some "restart_interrupted".data,
        errorMsg := some "Job interrupted by backend restart".data } := by
  simp only [recoverJob, if_pos h1, if_neg h2]

theorem recoverJob_skip (auto : Bool) (retryMax : Int) (now : ℚ) (job : Job)
    (h1 : ¬ (job.status = .running ∨ job.status = .cancelRequested)) :
    recoverJob auto retryMax now job = job := by
  simp only [recoverJob, if_neg h1]

theorem keys_map_value {κ α β : Type} (f : α → β) (l : List (κ × α)) :
    (l.map (fun e => (e.1, f e.2))).map Prod.fst = l.map Prod.fst := by
  induction l with
  | nil => rfl
  | cons e rest ih => simp [ih]

theorem mem_of_lookupKey {κ α : Type} [DecidableEq κ] (a : κ) (b : α)
    (l : List (κ × α)) (h : lookupKey a l = some b) : (a, b) ∈ l := by
  induction l with
  | nil => simp [lookupKey] at h
  | cons e rest ih =>
    obtain ⟨k', v'⟩ := e
    by_cases hk : k' = a
    · subst hk
      simp only [lookupKey, if_pos rfl] at h
      cases h
      simp
    · simp only [lookupKey, if_neg hk] at h
      simp [ih h]

/-- C4: after engine construction (snapshot load plus restart recovery),
every job whose snapshot status was `running` or `cancel_requested` is
either `interrupted` with error code `restart_interrupted` or requeued to
`queued`; the requeue happens exactly when `auto_requeue_interrupted` holds,
`restart_requeues < 1` and `attempts ≤ retry_max`, in which case
`restart_requeues` is incremented and the delay is zero (`available_at`
equals the recovery time); and no job remains `running` or
`cancel_requested` afterwards. -/
theorem C4_restart_recovery (settings : TxSettings) (now : ℚ) (nowSec : Nat)
    (st : EngineState) (hnd : (st.jobs.map Prod.fst).Nodup) :
    (∀ jobId job, lookupKey jobId st.jobs = some job →
      (job.status = .running ∨ job.status = .cancelRequested) →
      ∃ job', lookupKey jobId (engineConstruct settings now nowSec st).jobs = some job' ∧
        job'.errorCode = some "restart_interrupted".data ∧
        (job'.status = .interrupted ∨ job'.status = .queued) ∧
        (job'.status = .queued ↔
          settings.autoRequeueInterrupted = true ∧
          (job.restartRequeues : Int) < 1 ∧
          (job.attempts : Int) ≤ settings.retryMax) ∧
        (job'.status = .queued →
          job'.restartRequeues = job.restartRequeues + 1 ∧
          job'.availableAt = now ∧
          jobId ∈ (engineConstruct settings now nowSec st).queue) ∧
        (job'.status = .interrupted → job'.restartRequeues = job.restartRequeues)) ∧
    (∀ jobId job',
      lookupKey jobId (engineConstruct settings now nowSec st).jobs = some job' →
      job'.status ≠ .running ∧ job'.status ≠ .cancelRequested) := by
  set auto := settings.autoRequeueInterrupted with hauto
  set rmax := settings.retryMax with hrmax
  obtain ⟨hspec1, hspec2, hspec3⟩ :=
    recoverJobLoop_spec auto rmax now (loadStateQueueClean st).jobs
      (loadStateQueueClean st).queue
  rcases hlp : recoverJobLoop auto rmax now (loadStateQueueClean st).jobs
      (loadStateQueueClean st).queue with ⟨jobs1, queue1⟩
  rw [hlp] at hspec1 hspec2 hspec3
  simp only at hspec1 hspec2 hspec3
  have hjobs0 : (loadStateQueueClean st).jobs = st.jobs := rfl
  rw [hjobs0] at hspec1 hspec3
  have hEC : engineConstruct settings now nowSec st =
      pruneHistoryLocked settings nowSec
        { loadStateQueueClean st with jobs := jobs1, queue := queue1 } := by
    simp only [engineConstruct, recoverAfterRestart, ← hauto, ← hrmax, hlp]
  have hnd1 : ((({ loadStateQueueClean st with jobs := jobs1, queue := queue1 }
      : EngineState).jobs.map Prod.fst)).Nodup := by
    simpa [hspec1, keys_map_value] using hnd
  constructor
  · intro jobId job hJob hrun
    have hlook1 : lookupKey jobId jobs1 =
        some (recoverJob auto rmax now job) := by
      rw [hspec1, lookupKey_map_value, hJob]
      rfl
    have hterm1 : isTerminal (recoverJob auto rmax now job).status = false := by
      by_cases h2 : auto = true ∧ (job.restartRequeues : Int) < 1 ∧
          (job.attempts : Int) ≤ rmax
      · rw [recoverJob_requeue auto rmax now job hrun h2]
        rfl
      · rw [recoverJob_interrupted auto rmax now job hrun h2]
        rfl
    obtain ⟨hP1, hP2, _⟩ := pruneHistoryLocked_preserve settings nowSec
      { loadStateQueueClean st with jobs := jobs1, queue := queue1 } jobId
      (recoverJob auto rmax now job) hnd1 hlook1 hterm1
    refine ⟨recoverJob auto rmax now job, by rw [hEC]; exact hP1, ?_⟩
    by_cases h2 : auto = true ∧ (job.restartRequeues : Int) < 1 ∧
        (job.attempts : Int) ≤ rmax
    · rw [recoverJob_requeue auto rmax now job hrun h2]
      refine ⟨rfl, Or.inr rfl, ⟨fun _ => h2, fun _ => rfl⟩, ?_,
        fun h => JobStatus.noConfusion h⟩
      intro _
      refine ⟨rfl, rfl, ?_⟩
      rw [hEC]
      exact hP2 (hspec3 (jobId, job) (mem_of_lookupKey jobId job st.jobs hJob)
        hrun h2)
    · rw [recoverJob_interrupted auto rmax now job hrun h2]
      exact ⟨rfl, Or.inl rfl,
        ⟨fun h => JobStatus.noConfusion h, fun hc => absurd hc h2⟩,
        fun h => JobStatus.noConfusion h, fun _ => rfl⟩
  · intro jobId job' hlook'
    rw [hEC] at hlook'
    have h1 := pruneHistoryLocked_sound settings nowSec _ jobId job' hnd1 hlook'
    have h2 : lookupKey jobId jobs1 = some job' := h1
    rw [hspec1, lookupKey_map_value] at h2
    cases hJob : lookupKey jobId st.jobs with
    | none => rw [hJob] at h2; cases h2
    | some job =>
      rw [hJob] at h2
      have hj' : job' = recoverJob auto rmax now job := by
        simpa using h2.symm
      subst hj'
      by_cases hrun : job.status = .running ∨ job.status = .cancelRequested
      · by_cases hreq : auto = true ∧ (job.restartRequeues : Int) < 1 ∧
            (job.attempts : Int) ≤ rmax
        · rw [recoverJob_requeue auto rmax now job hrun hreq]
          exact ⟨fun h => JobStatus.noConfusion h, fun h => JobStatus.noConfusion h⟩
        · rw [recoverJob_interrupted auto rmax now job hrun hreq]
          exact ⟨fun h => JobStatus.noConfusion h, fun h => JobStatus.noConfusion h⟩
      · rw [recoverJob_skip auto rmax now job hrun]
        push_neg at hrun
        exact hrun

/-- C4 witness: recovery of a snapshot holding the single running job
`wJob` under the default settings re-queues it. -/
theorem C4_restart_recovery_witness :
    ∃ job', lookupKey 1 (engineConstruct wSettings 0 0
        { jobs := [(1, wJob)], queue := [], nextJobId := 2 }).jobs = some job' ∧
      job'.errorCode = some "restart_interrupted".data ∧
      (job'.status = .interrupted ∨ job'.status = .queued) ∧
      (job'.status = .queued ↔ wSettings.autoRequeueInterrupted = true ∧
        (wJob.restartRequeues : Int) < 1 ∧
        (wJob.attempts : Int) ≤ wSettings.retryMax) ∧
      (job'.status = .queued → job'.restartRequeues = wJob.restartRequeues + 1 ∧
        job'.availableAt = 0 ∧
        1 ∈ (engineConstruct wSettings 0 0
          { jobs := [(1, wJob)], queue := [], nextJobId := 2 }).queue) ∧
      (job'.status = .interrupted → job'.restartRequeues = wJob.restartRequeues) :=
  (C4_restart_recovery wSettings 0 0
    { jobs := [(1, wJob)], queue := [], nextJobId := 2 } (by decide)).1
    1 wJob (by decide) (by decide)

/-! ## Settings lemmas -/

theorem lookupKey_append_left {κ α : Type} [DecidableEq κ] (k : κ)
    (l1 l2 : List (κ × α)) (h : (lookupKey k l1).isSome = true) :
    lookupKey k (l1 ++ l2) = lookupKey k l1 := by
  induction l1 with
  | nil => simp [lookupKey] at h
  | cons e rest ih =>
    obtain ⟨k', v'⟩ := e
    by_cases hk : k' = k
    · simp [lookupKey, hk]
    · simp only [lookupKey, if_neg hk] at h ⊢
      exact ih h

theorem lookupKey_mergeLeft (k : Str) (base ov : List (Str × JVal)) :
    lookupKey k (mergeLeft base ov) =
      (lookupKey k base).map (fun v =>
        match lookupKey k ov with
        | none => v
        | some w => mergeVal v w) := by
  induction base with
  | nil => simp [mergeLeft, lookupKey]
  | cons e rest ih =>
    obtain ⟨k', v'⟩ := e
    by_cases hk : k' = k
    · simp [mergeLeft, lookupKey, hk]
    · simp [mergeLeft, lookupKey, hk, ih]

theorem lookupKey_mergeFields_isSome (k : Str) (base ov : List (Str × JVal))
    (h : (lookupKey k base).isSome = true) :
    (lookupKey k (mergeFields base ov)).isSome = true := by
  rw [mergeFields, lookupKey_append_left, lookupKey_mergeLeft]
  · cases hb : lookupKey k base with
    | none => rw [hb] at h; cases h
    | some v => simp
  · rw [lookupKey_mergeLeft]
    cases hb : lookupKey k base with
    | none => rw [hb] at h; cases h
    | some v => simp

theorem toIntClamped_mem (v : Option JVal) (fallback lo hi : Int) (h : lo ≤ hi) :
    lo ≤ toIntClamped v fallback lo hi ∧ toIntClamped v fallback lo hi ≤ hi := by
  unfold toIntClamped
  exact ⟨le_max_left _ _, max_le h (min_le_left _ _)⟩

theorem sanitizeTx_inRange (tx : List (Str × JVal)) :
    (∃ n, lookupKey "max_concurrent_jobs".data (sanitizeTx tx) = some (.jint n) ∧
      1 ≤ n ∧ n ≤ 8) ∧
    (∃ n, lookupKey "max_queued_jobs".data (sanitizeTx tx) = some (.jint n) ∧
      1 ≤ n ∧ n ≤ 500) ∧
    (∃ n, lookupKey "history_max_entries".data (sanitizeTx tx) = some (.jint n) ∧
      10 ≤ n ∧ n ≤ 5000) ∧
    (∃ n, lookupKey "history_ttl_days".data (sanitizeTx tx) = some (.jint n) ∧
      1 ≤ n ∧ n ≤ 365) ∧
    (∃ n, lookupKey "retry_max".data (sanitizeTx tx) = some (.jint n) ∧
      0 ≤ n ∧ n ≤ 10) ∧
    (∃ n, lookupKey "retry_base_ms".data (sanitizeTx tx) = some (.jint n) ∧
      100 ≤ n ∧ n ≤ 60000) ∧
    (∃ b, lookupKey "auto_requeue_interrupted".data (sanitizeTx tx) = some (.jbool b)) := by
  have h1 : ∃ n, lookupKey "max_concurrent_jobs".data (sanitizeTx tx) = some (.jint n) ∧
      1 ≤ n ∧ n ≤ 8 :=
    ⟨_, by
        simp only [sanitizeTx]
        rw [lookupKey_setKey_ne _ _ _ _ (by decide), lookupKey_setKey_ne _ _ _ _ (by decide), lookupKey_setKey_ne _ _ _ _ (by decide), lookupKey_setKey_ne _ _ _ _ (by decide), lookupKey_setKey_ne _ _ _ _ (by decide), lookupKey_setKey_ne _ _ _ _ (by decide), lookupKey_setKey_self],
      (toIntClamped_mem _ _ _ _ (by norm_num)).1,
      (toIntClamped_mem _ _ _ _ (by norm_num)).2⟩
  have h2 : ∃ n, lookupKey "max_queued_jobs".data (sanitizeTx tx) = some (.jint n) ∧
      1 ≤ n ∧ n ≤ 500 :=
    ⟨_, by
        simp only [sanitizeTx]
        rw [lookupKey_setKey_ne _ _ _ _ (by decide), lookupKey_setKey_ne _ _ _ _ (by decide), lookupKey_setKey_ne _ _ _ _ (by decide), lookupKey_setKey_ne _ _ _ _ (by decide), lookupKey_setKey_ne _ _ _ _ (by decide), lookupKey_setKey_self],
      (toIntClamped_mem _ _ _ _ (by norm_num)).1,
      (toIntClamped_mem _ _ _ _ (by norm_num)).2⟩
  have h3 : ∃ n, lookupKey "history_max_entries".data (sanitizeTx tx) = some (.jint n) ∧
      10 ≤ n ∧ n ≤ 5000 :=
    ⟨_, by
        simp only [sanitizeTx]
        rw [lookupKey_setKey_ne _ _ _ _ (by decide), lookupKey_setKey_ne _ _ _ _ (by decide), lookupKey_setKey_ne _ _ _ _ (by decide), lookupKey_setKey_ne _ _ _ _ (by decide), lookupKey_setKey_self],
      (toIntClamped_mem _ _ _ _ (by norm_num)).1,
      (toIntClamped_mem _ _ _ _ (by norm_num)).2⟩
  have h4 : ∃ n, lookupKey "history_ttl_days".data (sanitizeTx tx) = some (.jint n) ∧
      1 ≤ n ∧ n ≤ 365 :=
    ⟨_, by
        simp only [sanitizeTx]
        rw [lookupKey_setKey_ne _ _ _ _ (by decide), lookupKey_setKey_ne _ _ _ _ (by decide), lookupKey_setKey_ne _ _ _ _ (by decide), lookupKey_setKey_self],
      (toIntClamped_mem _ _ _ _ (by norm_num)).1,
      (toIntClamped_mem _ _ _ _ (by norm_num)).2⟩
  have h5 : ∃ n, lookupKey "retry_max".data (sanitizeTx tx) = some (.jint n) ∧
      0 ≤ n ∧ n ≤ 10 :=
    ⟨_, by
        simp only [sanitizeTx]
        rw [lookupKey_setKey_ne _ _ _ _ (by decide), lookupKey_setKey_ne _ _ _ _ (by decide), lookupKey_setKey_self],
      (toIntClamped_mem _ _ _ _ (by norm_num)).1,
      (toIntClamped_mem _ _ _ _ (by norm_num)).2⟩
  have h6 : ∃ n, lookupKey "retry_base_ms".data (sanitizeTx tx) = some (.jint n) ∧
      100 ≤ n ∧ n ≤ 60000 :=
    ⟨_, by
        simp only [sanitizeTx]
        rw [lookupKey_setKey_ne _ _ _ _ (by decide), lookupKey_setKey_self],
      (toIntClamped_mem _ _ _ _ (by norm_num)).1,
      (toIntClamped_mem _ _ _ _ (by norm_num)).2⟩
  have h7 : ∃ b, lookupKey "auto_requeue_interrupted".data (sanitizeTx tx) =
      some (.jbool b) :=
    ⟨_, by
        simp only [sanitizeTx]
        rw [lookupKey_setKey_self]⟩
  exact ⟨h1, h2, h3, h4, h5, h6, h7⟩

theorem lookupKey_mergeFields_some (k : Str) (base ov : List (Str × JVal))
    (v w : JVal) (hb : lookupKey k base = some v)
    (ho : lookupKey k ov = some w) :
    lookupKey k (mergeFields base ov) = some (mergeVal v w) := by
  rw [mergeFields, lookupKey_append_left]
  · rw [lookupKey_mergeLeft, hb, ho]
    rfl
  · rw [lookupKey_mergeLeft, hb]
    rfl

/-- C8 counterexample: `_load` merges the file content with the defaults
but never calls `_sanitize`, so a settings file carrying
`max_concurrent_jobs = 999` yields an engine-visible view with the value
999, outside the declared 1–8 range. -/
theorem txField_of_lookup (s : List (Str × JVal)) (k : Str)
    (tx : List (Str × JVal))
    (h : lookupKey "transcription".data s = some (.jobj tx)) :
    txField s k = lookupKey k tx := by
  unfold txField
  rw [h]

/-- C8 counterexample: `_load` merges the file content with the defaults
but never calls `_sanitize`, so a settings file carrying
`max_concurrent_jobs = 999` yields an engine-visible view with the value
999, outside the declared 1–8 range. -/
theorem C8_settings_counterexample :
    txField (settingsLoad (some (.jobj
      [("transcription".data,
        .jobj [("max_concurrent_jobs".data, .jint 999)])])))
      "max_concurrent_jobs".data = some (.jint 999) ∧
    ¬ ((999 : Int) ≤ 8) := by
  have hq1a : lookupKey "transcription".data
      (mergeFields SETTINGS_DEFAULTS
        [("transcription".data,
          .jobj [("max_concurrent_jobs".data, .jint 999)])]) =
      some (mergeVal (.jobj SETTINGS_TX_DEFAULTS)
        (.jobj [("max_concurrent_jobs".data, .jint 999)])) :=
    lookupKey_mergeFields_some _ _ _ _ _ rfl rfl
  have hq1 : lookupKey "transcription".data
      (mergeFields SETTINGS_DEFAULTS
        [("transcription".data,
          .jobj [("max_concurrent_jobs".data, .jint 999)])]) =
      some (.jobj (mergeFields SETTINGS_TX_DEFAULTS
        [("max_concurrent_jobs".data, .jint 999)])) :=
    hq1a.trans (by rw [mergeVal])
  have hq2a : lookupKey "max_concurrent_jobs".data
      (mergeFields SETTINGS_TX_DEFAULTS
        [("max_concurrent_jobs".data, .jint 999)]) =
      some (mergeVal (.jint DEFAULT_MAX_CONCURRENT_JOBS) (.jint 999)) :=
    lookupKey_mergeFields_some _ _ _ _ _ rfl rfl
  have hq2 : lookupKey "max_concurrent_jobs".data
      (mergeFields SETTINGS_TX_DEFAULTS
        [("max_concurrent_jobs".data, .jint 999)]) =
      some (.jint 999) :=
    hq2a.trans (by simp only [mergeVal])
  have hload : settingsLoad (some (.jobj
      [("transcription".data,
        .jobj [("max_concurrent_jobs".data, .jint 999)])])) =
      mergeFields SETTINGS_DEFAULTS
        [("transcription".data,
          .jobj [("max_concurrent_jobs".data, .jint 999)])] := rfl
  refine ⟨?_, by norm_num⟩
  exact (congrArg (fun s => txField s "max_concurrent_jobs".data) hload).trans
    ((txField_of_lookup _ _ _ hq1).trans hq2)

/-- C8 (amended): on load the merged view has every transcription key
present whenever the file's `transcription` entry is absent or is itself an
object (values are NOT clamped on load); and the sanitizer that runs on
every settings update coerces and clamps every transcription key into its
declared range. -/
theorem C8_settings_sanitized :
    (∀ fields : List (Str × JVal),
      (lookupKey "transcription".data fields = none ∨
        ∃ tf, lookupKey "transcription".data fields = some (.jobj tf)) →
      ∀ k, k ∈ TX_KEYS →
        (txField (settingsLoad (some (.jobj fields))) k).isSome = true) ∧
    (∀ payload out, sanitizeSettings payload = .ok out →
      txSanitizedInRange out) := by
  constructor
  · intro fields hcase k hk
    have hbase : lookupKey "transcription".data SETTINGS_DEFAULTS =
        some (.jobj SETTINGS_TX_DEFAULTS) := rfl
    have hkeys : (lookupKey k SETTINGS_TX_DEFAULTS).isSome = true := by
      simp only [TX_KEYS, List.mem_cons, List.not_mem_nil, or_false] at hk
      rcases hk with rfl | rfl | rfl | rfl | rfl | rfl | rfl <;> rfl
    have hmerge : lookupKey "transcription".data
        (mergeFields SETTINGS_DEFAULTS fields) =
        some (match lookupKey "transcription".data fields with
          | none => .jobj SETTINGS_TX_DEFAULTS
          | some w => mergeVal (.jobj SETTINGS_TX_DEFAULTS) w) := by
      rw [mergeFields, lookupKey_append_left]
      · rw [lookupKey_mergeLeft, hbase]
        rfl
      · rw [lookupKey_mergeLeft, hbase]
        rfl
    rcases hcase with hnone | ⟨tf, hsome⟩
    · rw [hnone] at hmerge
      simp only [settingsLoad, txField, hmerge]
      exact hkeys
    · rw [hsome] at hmerge
      simp only [settingsLoad, txField, hmerge, mergeVal]
      exact lookupKey_mergeFields_isSome k _ _ hkeys
  · intro payload out h
    cases hm : lookupKey "transcription".data
        (mergeFields SETTINGS_DEFAULTS payload) with
    | none =>
      simp only [sanitizeSettings, hm, Except.ok.injEq] at h
      subst h
      obtain ⟨h1, h2, h3, h4, h5, h6, h7⟩ := sanitizeTx_inRange []
      exact ⟨sanitizeTx [], lookupKey_setKey_self _ _ _,
        h1, h2, h3, h4, h5, h6, h7⟩
    | some v =>
      cases v with
      | jobj tx =>
        simp only [sanitizeSettings, hm, Except.ok.injEq] at h
        subst h
        obtain ⟨h1, h2, h3, h4, h5, h6, h7⟩ := sanitizeTx_inRange tx
        exact ⟨sanitizeTx tx, lookupKey_setKey_self _ _ _,
          h1, h2, h3, h4, h5, h6, h7⟩
      | jnull => simp [sanitizeSettings, hm] at h
      | jint n => simp [sanitizeSettings, hm] at h
      | jbool b => simp [sanitizeSettings, hm] at h
      | jstr s => simp [sanitizeSettings, hm] at h

/-- Witness for the amended C8 theorem at concrete inputs: the empty file
content for the load half, and the empty patch (yielding the sanitized
defaults view `wSanitized`) for the sanitizer half. -/
theorem C8_settings_sanitized_witness :
    (txField (settingsLoad (some (.jobj []))) "retry_max".data).isSome = true ∧
    txSanitizedInRange wSanitized :=
  ⟨C8_settings_sanitized.1 [] (Or.inl rfl) "retry_max".data (by decide),
   C8_settings_sanitized.2 [] wSanitized (by
     simp [sanitizeSettings, mergeFields, mergeLeft, mergeVal, lookupKey,
       setKey, sanitizeTx, toIntClamped, jvalToInt, truthy, wSanitized,
       SETTINGS_DEFAULTS, SETTINGS_TX_DEFAULTS, DEFAULT_MAX_CONCURRENT_JOBS,
       DEFAULT_MAX_QUEUED_JOBS, DEFAULT_HISTORY_MAX_ENTRIES,
       DEFAULT_HISTORY_TTL_DAYS, DEFAULT_JOB_RETRY_MAX,
       DEFAULT_JOB_RETRY_BASE_MS, max_def, min_def])⟩

theorem foldr_splitWsStep_nonWs (s : Str) :
    ∀ w ∈ s.foldr splitWsStep [], ∀ c ∈ w, isWsChar c = false := by
  induction s with
  | nil =>
    intro w hw
    simp at hw
  | cons a s ih =>
    intro w hw c hc
    rw [List.foldr_cons] at hw
    by_cases hws : isWsChar a
    · rw [show splitWsStep a (s.foldr splitWsStep []) =
          [] :: s.foldr splitWsStep [] from by
        unfold splitWsStep; rw [if_pos hws]] at hw
      rcases List.mem_cons.mp hw with rfl | hw
      · simp at hc
      · exact ih w hw c hc
    · rcases hacc : s.foldr splitWsStep [] with _ | ⟨w1, ws1⟩
      · rw [hacc] at hw
        rw [show splitWsStep a [] = [[a]] from by
          unfold splitWsStep; rw [if_neg hws]] at hw
        rcases List.mem_cons.mp hw with rfl | hw
        · rcases List.mem_cons.mp hc with rfl | hc
          · simpa using hws
          · simp at hc
        · simp at hw
      · rw [hacc] at hw
        rw [show splitWsStep a (w1 :: ws1) = (a :: w1) :: ws1 from by
          unfold splitWsStep; rw [if_neg hws]] at hw
        rcases List.mem_cons.mp hw with rfl | hw
        · rcases List.mem_cons.mp hc with rfl | hc
          · simpa using hws
          · exact ih w1 (by rw [hacc]; exact List.mem_cons_self _ _) c hc
        · exact ih w (by rw [hacc]; exact List.mem_cons_of_mem _ hw) c hc

theorem splitWs_pieces (s : Str) :
    ∀ w ∈ splitWs s, w ≠ [] ∧ ∀ c ∈ w, isWsChar c = false := by
  intro w hw
  unfold splitWs at hw
  refine ⟨?_, foldr_splitWsStep_nonWs s w (List.mem_of_mem_filter hw)⟩
  have h := List.of_mem_filter hw
  simpa using h

theorem flatten_filter_ne_nil (l : List Str) :
    (l.filter (fun w => w ≠ [])).flatten = l.flatten := by
  induction l with
  | nil => rfl
  | cons w l ih =>
    rw [List.filter_cons]
    by_cases h : w = []
    · subst h
      rw [if_neg (by decide), List.flatten_cons, List.nil_append]
      exact ih
    · rw [if_pos (by simpa using h), List.flatten_cons, List.flatten_cons, ih]

theorem foldr_splitWsStep_flatten (s : Str) :
    (s.foldr splitWsStep []).flatten = s.filter (fun c => !isWsChar c) := by
  induction s with
  | nil => rfl
  | cons a s ih =>
    rw [List.foldr_cons]
    by_cases hws : isWsChar a
    · rw [show splitWsStep a (s.foldr splitWsStep []) =
          [] :: s.foldr splitWsStep [] from by
        unfold splitWsStep; rw [if_pos hws]]
      simp [List.filter_cons, hws, ih]
    · have hws' : isWsChar a = false := by simpa using hws
      rcases hacc : s.foldr splitWsStep [] with _ | ⟨w1, ws1⟩
      · rw [show splitWsStep a [] = [[a]] from by
          unfold splitWsStep; rw [if_neg hws]]
        have h0 : s.filter (fun c => !isWsChar c) = [] := by
          rw [← ih, hacc]; rfl
        simp [List.filter_cons, hws', h0]
      · rw [show splitWsStep a (w1 :: ws1) = (a :: w1) :: ws1 from by
          unfold splitWsStep; rw [if_neg hws]]
        have h1 : (w1 :: ws1).flatten = s.filter (fun c => !isWsChar c) := by
          rw [← ih, hacc]
        simp only [List.flatten_cons, List.cons_append] at h1 ⊢
        rw [List.filter_cons, hws']
        simp [h1]

theorem splitWs_flatten (s : Str) :
    (splitWs s).flatten = s.filter (fun c => !isWsChar c) := by
  unfold splitWs
  rw [flatten_filter_ne_nil, foldr_splitWsStep_flatten]

theorem joinSpace_filter_nonWs (ws : List Str) :
    (joinSpace ws).filter (fun c => !isWsChar c) =
      ws.flatten.filter (fun c => !isWsChar c) := by
  induction ws with
  | nil => rfl
  | cons w ws ih =>
    cases ws with
    | nil => simp [joinSpace]
    | cons w2 ws2 =>
      simp only [joinSpace, List.filter_append, List.flatten_cons]
      rw [List.filter_cons, if_neg (by decide)]
      rw [ih, List.flatten_cons, List.filter_append]

theorem joinSpace_splitWs_filter (s : Str) :
    (joinSpace (splitWs s)).filter (fun c => !isWsChar c) =
      s.filter (fun c => !isWsChar c) := by
  rw [joinSpace_filter_nonWs, splitWs_flatten, List.filter_filter]
  simp only [Bool.and_self]

theorem joinSpace_mem_space (ws : List Str)
    (h : ∀ w ∈ ws, ∀ c ∈ w, isWsChar c = false) :
    ∀ c ∈ joinSpace ws, isWsChar c = true → c = ' ' := by
  induction ws with
  | nil =>
    intro c hc
    simp [joinSpace] at hc
  | cons w ws ih =>
    cases ws with
    | nil =>
      intro c hc hws
      have hcw : c ∈ w := by simpa [joinSpace] using hc
      have := h w (List.mem_cons_self _ _) c hcw
      rw [this] at hws
      cases hws
    | cons w2 ws2 =>
      intro c hc hws
      simp only [joinSpace] at hc
      rcases List.mem_append.mp hc with hcw | hcr
      · have := h w (List.mem_cons_self _ _) c hcw
        rw [this] at hws
        cases hws
      · rcases List.mem_cons.mp hcr with rfl | hcj
        · rfl
        · exact ih (fun w' hw' => h w' (List.mem_cons_of_mem _ hw')) c hcj hws

theorem joinSpace_head_nonWs (ws : List Str)
    (h : ∀ w ∈ ws, w ≠ [] ∧ ∀ c ∈ w, isWsChar c = false) :
    ∀ c ∈ (joinSpace ws).head?, isWsChar c = false := by
  cases ws with
  | nil =>
    intro c hc
    simp [joinSpace] at hc
  | cons w ws =>
    intro c hc
    obtain ⟨hne, hnws⟩ := h w (List.mem_cons_self _ _)
    rcases w with _ | ⟨a, w'⟩
    · exact absurd rfl hne
    · have hh : (joinSpace ((a :: w') :: ws)).head? = some a := by
        cases ws with
        | nil => rfl
        | cons w2 ws2 => rfl
      rw [hh] at hc
      have hca : a = c := by simpa using hc
      subst hca
      exact hnws a (List.mem_cons_self _ _)

theorem joinSpace_getLast_nonWs (ws : List Str)
    (h : ∀ w ∈ ws, w ≠ [] ∧ ∀ c ∈ w, isWsChar c = false) :
    ∀ c ∈ (joinSpace ws).getLast?, isWsChar c = false := by
  induction ws with
  | nil =>
    intro c hc
    simp [joinSpace] at hc
  | cons w ws ih =>
    cases ws with
    | nil =>
      intro c hc
      obtain ⟨hne, hnws⟩ := h w (List.mem_cons_self _ _)
      simp only [joinSpace] at hc
      obtain ⟨hx, rfl⟩ := List.mem_getLast?_eq_getLast hc
      exact hnws _ (List.getLast_mem hx)
    | cons w2 ws2 =>
      intro c hc
      simp only [joinSpace] at hc
      rw [List.getLast?_append_cons] at hc
      have hrest : ∀ w' ∈ w2 :: ws2, w' ≠ [] ∧ ∀ c2 ∈ w', isWsChar c2 = false :=
        fun w' hw' => h w' (List.mem_cons_of_mem _ hw')
      have hJ : joinSpace (w2 :: ws2) ≠ [] := by
        obtain ⟨hne2, _⟩ := hrest w2 (List.mem_cons_self _ _)
        rcases w2 with _ | ⟨b, w2'⟩
        · exact absurd rfl hne2
        · cases ws2 with
          | nil => simp [joinSpace]
          | cons w3 ws3 => simp [joinSpace]
      rcases hJc : joinSpace (w2 :: ws2) with _ | ⟨b, J2⟩
      · exact absurd hJc hJ
      · rw [hJc, List.getLast?_cons_cons] at hc
        have hih := ih hrest c
        rw [hJc] at hih
        exact hih hc

theorem chain'_nonWs (w : Str) (h : ∀ c ∈ w, isWsChar c = false) :
    List.Chain' (fun a b => ¬(a = ' ' ∧ b = ' ')) w := by
  induction w with
  | nil => exact List.chain'_nil
  | cons a w ih =>
    rw [List.chain'_cons']
    refine ⟨?_, ih (fun c hc => h c (List.mem_cons_of_mem _ hc))⟩
    intro y _ hcon
    have ha := h a (List.mem_cons_self _ _)
    rw [hcon.1] at ha
    exact absurd ha (by decide)

theorem joinSpace_chain' (ws : List Str)
    (h : ∀ w ∈ ws, w ≠ [] ∧ ∀ c ∈ w, isWsChar c = false) :
    List.Chain' (fun a b => ¬(a = ' ' ∧ b = ' ')) (joinSpace ws) := by
  induction ws with
  | nil => exact List.chain'_nil
  | cons w ws ih =>
    obtain ⟨hne, hnws⟩ := h w (List.mem_cons_self _ _)
    cases ws with
    | nil => exact chain'_nonWs w hnws
    | cons w2 ws2 =>
      have hrest : ∀ w' ∈ w2 :: ws2, w' ≠ [] ∧ ∀ c ∈ w', isWsChar c = false :=
        fun w' hw' => h w' (List.mem_cons_of_mem _ hw')
      have hJhead := joinSpace_head_nonWs (w2 :: ws2) hrest
      show List.Chain' _ (w ++ ' ' :: joinSpace (w2 :: ws2))
      rw [List.chain'_append]
      refine ⟨chain'_nonWs w hnws, ?_, ?_⟩
      · rw [List.chain'_cons']
        refine ⟨?_, ih hrest⟩
        intro y hy hcon
        have hyn := hJhead y hy
        rw [hcon.2] at hyn
        exact absurd hyn (by decide)
      · intro x hx y hy hcon
        obtain ⟨hgl, rfl⟩ := List.mem_getLast?_eq_getLast hx
        have hxn := hnws _ (List.getLast_mem hgl)
        rw [hcon.1] at hxn
        exact absurd hxn (by decide)

/-- C9 counterexample: on the empty message the placeholder substitutes
the fallback text "Unknown transcription error", so the placeholder is not
the bracket text around the collapse of the message (which is empty). -/
theorem C9_failure_counterexample :
    buildFailurePlaceholder [] =
      "[Transcription failed: Unknown transcription error]".data ∧
    joinSpace (splitWs []) = [] ∧
    buildFailurePlaceholder [] ≠ "[Transcription failed: ]".data :=
  ⟨rfl, rfl, by decide⟩

theorem markerCandidates_head (t : Str) (hT : t ≠ []) :
    markerCandidates t = t ::
      dedupSeen [t]
        [ replaceAll "[[".data "\\[\\[".data t,
          replaceAll "]]".data "\\]\\]".data
            (replaceAll "[[".data "\\[\\[".data t),
          replaceAll "]".data "\\]".data
            (replaceAll "[".data "\\[".data t) ] := by
  rw [markerCandidates, if_neg hT]
  rfl

/-- C9 (amended): for every NONEMPTY message the failure placeholder is
"[Transcription failed: " followed by the message collapsed to one line
(whitespace runs replaced by single spaces, ends stripped), truncated to
177 characters plus "..." when longer than 180, followed by "]"; the
collapse satisfies the spec's description; the message
"decoder runtime exploded" yields exactly
"[Transcription failed: decoder runtime exploded]"; and on a terminal run
failure with that message (it is not transient, so no retry happens), a
note whose content contains the job's marker token comes to contain the
placeholder in place of the first occurrence of the marker. -/
theorem C9_failure_placeholder :
    (∀ message : Str, message ≠ [] →
      buildFailurePlaceholder message =
        "[Transcription failed: ".data ++
          (if 180 < (joinSpace (splitWs message)).length
            then (joinSpace (splitWs message)).take 177 ++ "...".data
            else joinSpace (splitWs message)) ++ "]".data ∧
      isCollapseOf (joinSpace (splitWs message)) message) ∧
    buildFailurePlaceholder "decoder runtime exploded".data =
      "[Transcription failed: decoder runtime exploded]".data ∧
    (∀ (settings : TxSettings) (now : ℚ) (nowSec : Nat) (w : EngineWorld)
      (jobId : Nat) (job : Job) (notePath content : Str) (revision : Nat),
      lookupKey jobId w.engine.jobs = some job →
      job.markerToken ≠ [] →
      getById w.notes.index job.noteId = some (notePath, revision) →
      readNote w.notes.fs notePath = .ok content →
      occursIn job.markerToken content = true →
      ∃ pre post,
        content = pre ++ job.markerToken ++ post ∧
        (∀ pre2 post2, content = pre2 ++ job.markerToken ++ post2 →
          pre.length ≤ pre2.length) ∧
        readNote (handleRunFailure settings now nowSec w jobId
            "decoder runtime exploded".data).notes.fs notePath =
          .ok (pre ++ "[Transcription failed: decoder runtime exploded]".data
            ++ post)) := by
  refine ⟨?_, rfl, ?_⟩
  · intro message hne
    constructor
    · simp only [buildFailurePlaceholder]
      rw [if_neg hne]
    · refine ⟨joinSpace_splitWs_filter message, ?_, ?_, ?_, ?_⟩
      · exact joinSpace_mem_space (splitWs message)
          (fun w hw => (splitWs_pieces message w hw).2)
      · exact joinSpace_chain' (splitWs message) (splitWs_pieces message)
      · exact joinSpace_head_nonWs (splitWs message) (splitWs_pieces message)
      · exact joinSpace_getLast_nonWs (splitWs message) (splitWs_pieces message)
  · intro settings now nowSec w jobId job notePath content revision
      hjob hT hId hRead hOcc
    have hfind : (markerCandidates job.markerToken).find?
        (fun c => occursIn c content) = some job.markerToken := by
      rw [markerCandidates_head _ hT]
      exact List.find?_cons_of_pos _ hOcc
    obtain ⟨pre, post, hsplit, hfirst, hmin⟩ :=
      replaceFirst_spec job.markerToken
        (buildFailurePlaceholder "decoder runtime exploded".data) content hOcc
    obtain ⟨hw, hr⟩ := writeNote_after_read w.notes.fs notePath content
      (replaceFirst job.markerToken
        (buildFailurePlaceholder "decoder runtime exploded".data) content) hRead
    rcases hix : incrementRevision w.notes.index job.noteId with ⟨rv, idx2⟩
    have hrm : replaceMarker w.notes job.noteId job.markerToken
        (buildFailurePlaceholder "decoder runtime exploded".data) =
        (.ok ⟨.applied, job.noteId, some notePath, rv⟩,
         { fs := setKey (resolveNotePath w.notes.fs notePath)
             (replaceFirst job.markerToken
               (buildFailurePlaceholder "decoder runtime exploded".data)
               content)
             w.notes.fs,
           index := idx2 }) := by
      simp only [replaceMarker, if_neg hT, hId, hRead, hfind, hw, hix]
    have hterm : ¬(isTransientError "decoder runtime exploded".data = true ∧
        ((job.attempts : Int) ≤ settings.retryMax)) :=
      fun hcon => absurd hcon.1 (by decide)
    refine ⟨pre, post, hsplit, hmin, ?_⟩
    simp only [handleRunFailure, hjob]
    rw [if_neg hterm]
    simp only [hrm]
    rw [hr, hfirst]
    rfl

/-- Witness for the amended C9 theorem: the placeholder half at the
concrete message "x", and the terminal-failure splice half at the
one-job world over the note `n.txt` with content `a[[m]]b`. -/
theorem C9_failure_placeholder_witness :
    (buildFailurePlaceholder "x".data =
      "[Transcription failed: ".data ++
        (if 180 < (joinSpace (splitWs "x".data)).length
          then (joinSpace (splitWs "x".data)).take 177 ++ "...".data
          else joinSpace (splitWs "x".data)) ++ "]".data ∧
    isCollapseOf (joinSpace (splitWs "x".data)) "x".data) ∧
    (∃ pre post,
      "a[[m]]b".data = pre ++ "[[m]]".data ++ post ∧
      (∀ pre2 post2, "a[[m]]b".data = pre2 ++ "[[m]]".data ++ post2 →
        pre.length ≤ pre2.length) ∧
      readNote (handleRunFailure wSettings 0 0 wWorld 1
          "decoder runtime exploded".data).notes.fs "n".data =
        .ok (pre ++ "[Transcription failed: decoder runtime exploded]".data
          ++ post)) :=
  ⟨C9_failure_placeholder.1 "x".data (by decide),
   C9_failure_placeholder.2.2 wSettings 0 0 wWorld 1 wJob "n".data
     "a[[m]]b".data 1 rfl (by decide) rfl rfl (by decide)⟩

theorem lookupKey_isSome_of_mem_keys {κ α : Type} [DecidableEq κ] (a : κ)
    (l : List (κ × α)) (h : a ∈ l.map Prod.fst) :
    (lookupKey a l).isSome = true := by
  induction l with
  | nil => simp at h
  | cons e rest ih =>
    rcases e with ⟨k2, v2⟩
    simp only [List.map_cons, List.mem_cons] at h
    by_cases hk : k2 = a
    · simp [lookupKey, hk]
    · rcases h with rfl | h
      · exact absurd rfl hk
      · simp [lookupKey, hk, ih h]

theorem mem_keys_of_lookupKey {κ α : Type} [DecidableEq κ] (a : κ) (b : α)
    (l : List (κ × α)) (h : lookupKey a l = some b) : a ∈ l.map Prod.fst :=
  List.mem_map.mpr ⟨(a, b), mem_of_lookupKey a b l h, rfl⟩

theorem keys_setKey {κ α : Type} [DecidableEq κ] (k : κ) (v : α)
    (l : List (κ × α)) :
    (setKey k v l).map Prod.fst =
      if (lookupKey k l).isSome = true then l.map Prod.fst
      else l.map Prod.fst ++ [k] := by
  induction l with
  | nil => simp [setKey, lookupKey]
  | cons e rest ih =>
    rcases e with ⟨k2, v2⟩
    by_cases hk : k2 = k
    · subst hk
      simp [setKey, lookupKey]
    · simp only [setKey, lookupKey, if_neg hk]
      rw [List.map_cons, List.map_cons, ih]
      by_cases hs : (lookupKey k rest).isSome = true
      · rw [if_pos hs, if_pos hs]
      · rw [if_neg hs, if_neg hs, List.cons_append]

theorem nodup_keys_setKey {κ α : Type} [DecidableEq κ] (k : κ) (v : α)
    (l : List (κ × α)) (h : (l.map Prod.fst).Nodup) :
    ((setKey k v l).map Prod.fst).Nodup := by
  rw [keys_setKey]
  by_cases hs : (lookupKey k l).isSome = true
  · rw [if_pos hs]
    exact h
  · rw [if_neg hs]
    have hk : k ∉ l.map Prod.fst :=
      fun hmem => hs (lookupKey_isSome_of_mem_keys _ _ hmem)
    simp [List.nodup_append, h, hk]

theorem setKey_eq_of_lookup {κ α : Type} [DecidableEq κ] (k : κ) (v : α)
    (l : List (κ × α)) (h : lookupKey k l = some v) : setKey k v l = l := by
  induction l with
  | nil => simp [lookupKey] at h
  | cons e rest ih =>
    rcases e with ⟨k2, v2⟩
    by_cases hk : k2 = k
    · subst hk
      simp only [lookupKey, if_pos rfl] at h
      injection h with hv
      simp [setKey, hv]
    · simp only [lookupKey, if_neg hk] at h
      simp [setKey, hk, ih h]

theorem liveUnique_of_projection (st : IndexState) (h : pathProjection st) :
    liveUnique st := by
  intro id1 r1 id2 r2 h1 h2 hd1 hd2 hp
  have ha : lookupKey r1.path st.pathToId = some id1 :=
    (h r1.path id1).mpr ⟨r1, h1, hd1, rfl⟩
  have hb : lookupKey r1.path st.pathToId = some id2 :=
    (h r1.path id2).mpr ⟨r2, h2, hd2, hp.symm⟩
  rw [ha] at hb
  injection hb

theorem markFn_path (normalized : List Str) (r : NoteRecord) :
    (markFn normalized r).path = r.path := by
  unfold markFn
  split_ifs <;> rfl

theorem emptyIndex_inv : indexInv emptyIndex := by
  refine ⟨by simp [emptyIndex], by simp [emptyIndex], ?_, ?_, ?_⟩
  · intro noteId hmem
    simp [emptyIndex] at hmem
  · intro noteId r hl
    simp [emptyIndex, lookupKey] at hl
  · intro p noteId
    simp [emptyIndex, lookupKey]

/-- C5 counterexample: ensure "a" (creating id 1), tombstone id 1, then
sync with "a" still present revives record 1 while also creating record 2;
two non-deleted records share path "a", and `path_to_id` (which maps "a"
to 2 only) is not the projection of the table over non-deleted records. -/
theorem C5_index_counterexample :
    lookupKey 1 (syncPaths (markDeletedById (ensurePath emptyIndex "a".data).2 1)
        ["a".data]).notes = some ⟨"a".data, 1, false⟩ ∧
    lookupKey 2 (syncPaths (markDeletedById (ensurePath emptyIndex "a".data).2 1)
        ["a".data]).notes = some ⟨"a".data, 1, false⟩ ∧
    (syncPaths (markDeletedById (ensurePath emptyIndex "a".data).2 1)
        ["a".data]).pathToId = [("a".data, 2)] ∧
    ¬ liveUnique (syncPaths (markDeletedById (ensurePath emptyIndex "a".data).2 1)
        ["a".data]) ∧
    ¬ pathProjection (syncPaths (markDeletedById (ensurePath emptyIndex "a".data).2 1)
        ["a".data]) := by
  refine ⟨rfl, rfl, rfl, fun h => ?_, fun h => ?_⟩
  · exact absurd
      (h 1 ⟨"a".data, 1, false⟩ 2 ⟨"a".data, 1, false⟩ rfl rfl rfl rfl rfl)
      (by decide)
  · have h1 := (h "a".data 1).mpr ⟨⟨"a".data, 1, false⟩, rfl, rfl, rfl⟩
    exact absurd h1 (by decide)

theorem ensurePathLocked_inv (st : IndexState) (q : Str) (hq : q ≠ [])
    (hinv : indexInv st) : indexInv (ensurePathLocked st q).2 := by
  cases hlp : lookupKey q st.pathToId with
  | some noteId =>
    obtain ⟨r, hr, hrd, hrp⟩ := (hinv.2.2.2.2 q noteId).mp hlp
    simp [ensurePathLocked, hlp, hr, hrd]
    exact hinv
  | none =>
    obtain ⟨h1, h2, h3, h4, h5⟩ := hinv
    simp only [ensurePathLocked, hlp, ensureCreate]
    have hnmem : st.nextId ∉ st.notes.map Prod.fst :=
      fun hmem => lt_irrefl _ (h3 _ hmem)
    have hlookn : lookupKey st.nextId st.notes = none :=
      lookupKey_eq_none_of_notin _ _ hnmem
    have hqmem : q ∉ st.pathToId.map Prod.fst := by
      intro hmem
      have hs := lookupKey_isSome_of_mem_keys q st.pathToId hmem
      rw [hlp] at hs
      simp at hs
    refine ⟨?_, ?_, ?_, ?_, ?_⟩
    · rw [keys_setKey, hlookn]
      simp [List.nodup_append, h1, hnmem]
    · rw [keys_setKey, hlp]
      simp [List.nodup_append, h2, hqmem]
    · intro id hmem
      rw [keys_setKey, hlookn] at hmem
      simp at hmem
      rcases hmem with ⟨x, hx⟩ | rfl
      · exact Nat.lt_succ_of_lt (h3 _ (List.mem_map.mpr ⟨(id, x), hx, rfl⟩))
      · exact Nat.lt_succ_self _
    · intro id r2 hl
      by_cases hid : id = st.nextId
      · subst hid
        rw [lookupKey_setKey_self] at hl
        injection hl with he
        subst he
        exact hq
      · rw [lookupKey_setKey_ne _ _ _ _ hid] at hl
        exact h4 _ _ hl
    · intro p id
      constructor
      · intro hpl
        by_cases hpq : p = q
        · subst hpq
          rw [lookupKey_setKey_self] at hpl
          injection hpl with he
          subst he
          exact ⟨⟨p, 1, false⟩, by rw [lookupKey_setKey_self], rfl, rfl⟩
        · rw [lookupKey_setKey_ne _ _ _ _ hpq] at hpl
          obtain ⟨r2, hr2, hrd2, hrp2⟩ := (h5 p id).mp hpl
          have hidne : id ≠ st.nextId := by
            intro he
            subst he
            rw [hlookn] at hr2
            exact Option.noConfusion hr2
          exact ⟨r2, by rw [lookupKey_setKey_ne _ _ _ _ hidne]; exact hr2,
            hrd2, hrp2⟩
      · rintro ⟨r2, hr2, hrd2, hrp2⟩
        by_cases hid : id = st.nextId
        · subst hid
          rw [lookupKey_setKey_self] at hr2
          injection hr2 with he
          subst he
          subst hrp2
          show lookupKey q (setKey q st.nextId st.pathToId) = some st.nextId
          rw [lookupKey_setKey_self]
        · rw [lookupKey_setKey_ne _ _ _ _ hid] at hr2
          have hpl := (h5 p id).mpr ⟨r2, hr2, hrd2, hrp2⟩
          have hpq : p ≠ q := by
            intro he
            subst he
            rw [hlp] at hpl
            exact Option.noConfusion hpl
          rw [lookupKey_setKey_ne _ _ _ _ hpq]
          exact hpl

theorem ensurePathLocked_tomb (st : IndexState) (q : Str) (hinv : indexInv st)
    (id : Nat) (r : NoteRecord)
    (hl : lookupKey id (ensurePathLocked st q).2.notes = some r)
    (hd : r.deleted = true) : lookupKey id st.notes = some r := by
  cases hlp : lookupKey q st.pathToId with
  | some noteId =>
    obtain ⟨r0, hr0, hrd0, hrp0⟩ := (hinv.2.2.2.2 q noteId).mp hlp
    simp [ensurePathLocked, hlp, hr0, hrd0] at hl
    exact hl
  | none =>
    simp only [ensurePathLocked, hlp, ensureCreate] at hl
    by_cases hid : id = st.nextId
    · subst hid
      rw [lookupKey_setKey_self] at hl
      injection hl with he
      rw [← he] at hd
      simp at hd
    · rw [lookupKey_setKey_ne _ _ _ _ hid] at hl
      exact hl

theorem syncPhase1_inv (qs : List Str) : ∀ st, indexInv st →
    (∀ q ∈ qs, q ≠ []) → indexInv (syncPhase1 st qs) := by
  induction qs with
  | nil =>
    intro st hinv _
    exact hinv
  | cons q qs ih =>
    intro st hinv hq
    exact ih _ (ensurePathLocked_inv st q (hq q (List.mem_cons_self _ _)) hinv)
      (fun q2 h2 => hq q2 (List.mem_cons_of_mem _ h2))

theorem syncPhase1_tomb (qs : List Str) : ∀ st, indexInv st →
    (∀ q ∈ qs, q ≠ []) →
    ∀ id r, lookupKey id (syncPhase1 st qs).notes = some r → r.deleted = true →
      lookupKey id st.notes = some r := by
  induction qs with
  | nil =>
    intro st _ _ id r hl _
    exact hl
  | cons q qs ih =>
    intro st hinv hq id r hl hd
    have hstep := ih (ensurePathLocked st q).2
      (ensurePathLocked_inv st q (hq q (List.mem_cons_self _ _)) hinv)
      (fun q2 h2 => hq q2 (List.mem_cons_of_mem _ h2)) id r hl hd
    exact ensurePathLocked_tomb st q hinv id r hstep hd

theorem updatePath_inv (st : IndexState) (noteId : Nat) (newPath : Str)
    (hnp : normalizePath newPath ≠ [])
    (hlive : ∃ r, lookupKey noteId st.notes = some r ∧ r.deleted = false)
    (hnocol : ∀ id2 r2, lookupKey id2 st.notes = some r2 → r2.deleted = false →
      r2.path = normalizePath newPath → id2 = noteId)
    (hinv : indexInv st) : indexInv (updatePath st noteId newPath).2 := by
  obtain ⟨h1, h2, h3, h4, h5⟩ := hinv
  obtain ⟨r0, hr0, hr0d⟩ := hlive
  have holdne : r0.path ≠ [] := h4 _ _ hr0
  have holdlp : lookupKey r0.path st.pathToId = some noteId :=
    (h5 r0.path noteId).mpr ⟨r0, hr0, hr0d, rfl⟩
  simp only [updatePath, hr0]
  rw [if_pos ⟨holdne, by rw [holdlp]; rfl⟩]
  refine ⟨?_, ?_, ?_, ?_, ?_⟩
  · rw [keys_setKey, hr0]
    simpa using h1
  · exact nodup_keys_setKey _ _ _ (nodup_keys_delKey _ _ h2)
  · intro id hmem
    rw [keys_setKey, hr0] at hmem
    simp at hmem
    rcases hmem with ⟨x, hx⟩
    exact h3 _ (List.mem_map.mpr ⟨(id, x), hx, rfl⟩)
  · intro id r hl
    by_cases hid : id = noteId
    · subst hid
      rw [lookupKey_setKey_self] at hl
      injection hl with he
      subst he
      exact hnp
    · rw [lookupKey_setKey_ne _ _ _ _ hid] at hl
      exact h4 _ _ hl
  · intro p id
    constructor
    · intro hpl
      by_cases hpn : p = normalizePath newPath
      · subst hpn
        rw [lookupKey_setKey_self] at hpl
        injection hpl with he
        subst he
        refine ⟨{ r0 with path := normalizePath newPath, deleted := false },
          ?_, rfl, rfl⟩
        rw [lookupKey_setKey_self]
      · rw [lookupKey_setKey_ne _ _ _ _ hpn] at hpl
        by_cases hpo : p = r0.path
        · subst hpo
          rw [lookupKey_delKey_self _ _ h2] at hpl
          exact Option.noConfusion hpl
        · rw [lookupKey_delKey_ne _ _ _ hpo] at hpl
          obtain ⟨r2, hr2, hrd2, hrp2⟩ := (h5 p id).mp hpl
          have hidne : id ≠ noteId := by
            intro he
            subst he
            rw [hr0] at hr2
            injection hr2 with he2
            subst he2
            exact hpo hrp2.symm
          refine ⟨r2, ?_, hrd2, hrp2⟩
          rw [lookupKey_setKey_ne _ _ _ _ hidne]
          exact hr2
    · rintro ⟨r2, hr2, hrd2, hrp2⟩
      by_cases hid : id = noteId
      · subst hid
        rw [lookupKey_setKey_self] at hr2
        injection hr2 with he
        subst he
        subst hrp2
        show lookupKey (normalizePath newPath)
          (setKey (normalizePath newPath) id
            (delKey r0.path st.pathToId)) = some id
        rw [lookupKey_setKey_self]
      · rw [lookupKey_setKey_ne _ _ _ _ hid] at hr2
        have hpn : p ≠ normalizePath newPath := by
          intro he
          subst he
          exact hid (hnocol id r2 hr2 hrd2 hrp2)
        have hpl := (h5 p id).mpr ⟨r2, hr2, hrd2, hrp2⟩
        have hpo : p ≠ r0.path := by
          intro he
          subst he
          rw [holdlp] at hpl
          injection hpl with he2
          exact hid he2.symm
        rw [lookupKey_setKey_ne _ _ _ _ hpn, lookupKey_delKey_ne _ _ _ hpo]
        exact hpl

theorem markDeletedById_inv (st : IndexState) (noteId : Nat)
    (hinv : indexInv st) : indexInv (markDeletedById st noteId) := by
  obtain ⟨h1, h2, h3, h4, h5⟩ := hinv
  cases hl : lookupKey noteId st.notes with
  | none => simpa [markDeletedById, hl] using ⟨h1, h2, h3, h4, h5⟩
  | some r =>
    by_cases hrd : r.deleted = true
    · have hrr : ({ r with deleted := true } : NoteRecord) = r := by
        rw [← hrd]
      have hset : setKey noteId ({ r with deleted := true } : NoteRecord)
          st.notes = st.notes := by
        rw [hrr]
        exact setKey_eq_of_lookup _ _ _ hl
      have hcond : ¬(r.path ≠ [] ∧
          lookupKey r.path st.pathToId = some noteId) := by
        rintro ⟨-, hlp2⟩
        obtain ⟨r2, hr2, hrd2, -⟩ := (h5 _ _).mp hlp2
        rw [hl] at hr2
        injection hr2 with he
        subst he
        rw [hrd] at hrd2
        exact Bool.noConfusion hrd2
      simp only [markDeletedById, hl]
      rw [if_neg hcond, hset]
      exact ⟨h1, h2, h3, h4, h5⟩
    · have hrd' : r.deleted = false := by
        cases hdel : r.deleted
        · rfl
        · exact absurd hdel hrd
      have hpne : r.path ≠ [] := h4 _ _ hl
      have hlp : lookupKey r.path st.pathToId = some noteId :=
        (h5 _ _).mpr ⟨r, hl, hrd', rfl⟩
      simp only [markDeletedById, hl]
      rw [if_pos ⟨hpne, hlp⟩]
      refine ⟨?_, ?_, ?_, ?_, ?_⟩
      · rw [keys_setKey, hl]
        simpa using h1
      · exact nodup_keys_delKey _ _ h2
      · intro id hmem
        rw [keys_setKey, hl] at hmem
        simp at hmem
        rcases hmem with ⟨x, hx⟩
        exact h3 _ (List.mem_map.mpr ⟨(id, x), hx, rfl⟩)
      · intro id r2 hl2
        by_cases hid : id = noteId
        · subst hid
          rw [lookupKey_setKey_self] at hl2
          injection hl2 with he
          subst he
          exact hpne
        · rw [lookupKey_setKey_ne _ _ _ _ hid] at hl2
          exact h4 _ _ hl2
      · intro p id
        constructor
        · intro hpl2
          by_cases hpo : p = r.path
          · subst hpo
            rw [lookupKey_delKey_self _ _ h2] at hpl2
            exact Option.noConfusion hpl2
          · rw [lookupKey_delKey_ne _ _ _ hpo] at hpl2
            obtain ⟨r2, hr2, hrd2, hrp2⟩ := (h5 p id).mp hpl2
            have hidne : id ≠ noteId := by
              intro he
              subst he
              rw [hl] at hr2
              injection hr2 with he2
              subst he2
              exact hpo hrp2.symm
            refine ⟨r2, ?_, hrd2, hrp2⟩
            rw [lookupKey_setKey_ne _ _ _ _ hidne]
            exact hr2
        · rintro ⟨r2, hr2, hrd2, hrp2⟩
          by_cases hid : id = noteId
          · subst hid
            rw [lookupKey_setKey_self] at hr2
            injection hr2 with he
            rw [← he] at hrd2
            simp at hrd2
          · rw [lookupKey_setKey_ne _ _ _ _ hid] at hr2
            have hpl2 := (h5 p id).mpr ⟨r2, hr2, hrd2, hrp2⟩
            have hpo : p ≠ r.path := by
              intro he
              subst he
              rw [hlp] at hpl2
              injection hpl2 with he2
              exact hid he2.symm
            rw [lookupKey_delKey_ne _ _ _ hpo]
            exact hpl2

theorem markDeletedByPath_inv (st : IndexState) (p : Str)
    (hinv : indexInv st) : indexInv (markDeletedByPath st p) := by
  cases hlp : lookupKey (normalizePath p) st.pathToId with
  | some noteId =>
    simpa [markDeletedByPath, hlp] using markDeletedById_inv st noteId hinv
  | none => simpa [markDeletedByPath, hlp] using hinv

theorem mem_insertSortedStr (x a : Str) (l : List Str)
    (h : a ∈ insertSortedStr x l) : a = x ∨ a ∈ l := by
  induction l with
  | nil => simpa [insertSortedStr] using h
  | cons y ys ih =>
    unfold insertSortedStr at h
    by_cases hlt : strLt x y = true
    · rw [if_pos hlt] at h
      rcases List.mem_cons.mp h with rfl | h2
      · exact Or.inl rfl
      · exact Or.inr h2
    · rw [if_neg hlt] at h
      rcases List.mem_cons.mp h with rfl | h2
      · exact Or.inr (List.mem_cons_self _ _)
      · rcases ih h2 with rfl | h3
        · exact Or.inl rfl
        · exact Or.inr (List.mem_cons_of_mem _ h3)

theorem mem_sortStrs (a : Str) (l : List Str) (h : a ∈ sortStrs l) : a ∈ l := by
  induction l with
  | nil => simpa [sortStrs] using h
  | cons x xs ih =>
    unfold sortStrs at h
    rcases mem_insertSortedStr _ _ _ h with rfl | h2
    · exact List.mem_cons_self _ _
    · exact List.mem_cons_of_mem _ (ih h2)

theorem mem_dedupStrs (a : Str) (l : List Str) (h : a ∈ dedupStrs l) : a ∈ l := by
  induction l with
  | nil => simpa [dedupStrs] using h
  | cons x xs ih =>
    unfold dedupStrs at h
    by_cases hx : x ∈ xs
    · rw [if_pos hx] at h
      exact List.mem_cons_of_mem _ (ih h)
    · rw [if_neg hx] at h
      rcases List.mem_cons.mp h with rfl | h2
      · exact List.mem_cons_self _ _
      · exact List.mem_cons_of_mem _ (ih h2)

theorem normalizedList_ne_nil (ps : List Str)
    (hps : ∀ p ∈ ps, p ≠ [] → normalizePath p ≠ []) :
    ∀ q ∈ normalizedList ps, q ≠ [] := by
  intro q hq
  have h1 := mem_sortStrs _ _ hq
  have h2 := mem_dedupStrs _ _ h1
  obtain ⟨p, hp, rfl⟩ := List.mem_map.mp h2
  have h3 := List.mem_filter.mp hp
  exact hps p h3.1 (by simpa using h3.2)

theorem rebuild_foldl_lookup (M : List (Nat × NoteRecord)) :
    ∀ (acc : List (Str × Nat)),
    (∀ i1 r1 i2 r2, (i1, r1) ∈ M → (i2, r2) ∈ M → r1.deleted = false →
      r2.deleted = false → r1.path = r2.path → i1 = i2) →
    (∀ p i, lookupKey p acc = some i → ∀ i2 r2, (i2, r2) ∈ M →
      r2.deleted = false → r2.path = p → i2 = i) →
    ∀ p i, lookupKey p (M.foldl rebuildStep acc) = some i ↔
      (lookupKey p acc = some i ∨
        ∃ r, (i, r) ∈ M ∧ r.deleted = false ∧ r.path = p ∧ p ≠ []) := by
  induction M with
  | nil =>
    intro acc _ _ p i
    simp
  | cons e M ih =>
    intro acc huniq hcons p i
    rcases e with ⟨i0, r0⟩
    rw [List.foldl_cons]
    have huniq2 : ∀ i1 r1 i2 r2, (i1, r1) ∈ M → (i2, r2) ∈ M →
        r1.deleted = false → r2.deleted = false → r1.path = r2.path → i1 = i2 :=
      fun i1 r1 i2 r2 m1 m2 => huniq i1 r1 i2 r2
        (List.mem_cons_of_mem _ m1) (List.mem_cons_of_mem _ m2)
    by_cases hd : r0.deleted = true
    · rw [show rebuildStep acc (i0, r0) = acc from by
        simp only [rebuildStep]; rw [if_pos hd]]
      have hcons2 : ∀ p2 i2, lookupKey p2 acc = some i2 → ∀ i3 r3, (i3, r3) ∈ M →
          r3.deleted = false → r3.path = p2 → i3 = i2 :=
        fun p2 i2 hl i3 r3 m3 => hcons p2 i2 hl i3 r3 (List.mem_cons_of_mem _ m3)
      rw [ih acc huniq2 hcons2 p i]
      constructor
      · rintro (h | ⟨r, hr, hrd, hrp, hpne⟩)
        · exact Or.inl h
        · exact Or.inr ⟨r, List.mem_cons_of_mem _ hr, hrd, hrp, hpne⟩
      · rintro (h | ⟨r, hr, hrd, hrp, hpne⟩)
        · exact Or.inl h
        · rcases List.mem_cons.mp hr with he | hr2
          · injection he with he1 he2
            subst he2
            rw [hd] at hrd
            exact Bool.noConfusion hrd
          · exact Or.inr ⟨r, hr2, hrd, hrp, hpne⟩
    · have hcons2 : ∀ p2 i2, lookupKey p2 acc = some i2 → ∀ i3 r3, (i3, r3) ∈ M →
          r3.deleted = false → r3.path = p2 → i3 = i2 :=
        fun p2 i2 hl i3 r3 m3 => hcons p2 i2 hl i3 r3 (List.mem_cons_of_mem _ m3)
      have hd' : r0.deleted = false := by
        cases hdel : r0.deleted
        · rfl
        · exact absurd hdel hd
      by_cases hp0 : r0.path = []
      · rw [show rebuildStep acc (i0, r0) = acc from by
          simp only [rebuildStep]; rw [if_neg hd, if_pos hp0]]
        rw [ih acc huniq2 hcons2 p i]
        constructor
        · rintro (h | ⟨r, hr, hrd, hrp, hpne⟩)
          · exact Or.inl h
          · exact Or.inr ⟨r, List.mem_cons_of_mem _ hr, hrd, hrp, hpne⟩
        · rintro (h | ⟨r, hr, hrd, hrp, hpne⟩)
          · exact Or.inl h
          · rcases List.mem_cons.mp hr with he | hr2
            · injection he with he1 he2
              subst he2
              refine absurd ?_ hpne
              rw [← hrp]
              exact hp0
            · exact Or.inr ⟨r, hr2, hrd, hrp, hpne⟩
      · rw [show rebuildStep acc (i0, r0) = setKey r0.path i0 acc from by
          simp only [rebuildStep]; rw [if_neg hd, if_neg hp0]]
        have hcons3 : ∀ p2 i2, lookupKey p2 (setKey r0.path i0 acc) = some i2 →
            ∀ i3 r3, (i3, r3) ∈ M → r3.deleted = false → r3.path = p2 →
              i3 = i2 := by
          intro p2 i2 hl2 i3 r3 m3 hd3 hp3
          by_cases hp2 : p2 = r0.path
          · subst hp2
            rw [lookupKey_setKey_self] at hl2
            injection hl2 with he
            subst he
            exact huniq i3 r3 i0 r0 (List.mem_cons_of_mem _ m3)
              (List.mem_cons_self _ _) hd3 hd' hp3
          · rw [lookupKey_setKey_ne _ _ _ _ hp2] at hl2
            exact hcons p2 i2 hl2 i3 r3 (List.mem_cons_of_mem _ m3) hd3 hp3
        rw [ih (setKey r0.path i0 acc) huniq2 hcons3 p i]
        by_cases hpp : p = r0.path
        · subst hpp
          rw [lookupKey_setKey_self]
          constructor
          · rintro (he | ⟨r, hr, hrd, hrp, hpne⟩)
            · injection he with he1
              subst he1
              exact Or.inr ⟨r0, List.mem_cons_self _ _, hd', rfl, hp0⟩
            · exact Or.inr ⟨r, List.mem_cons_of_mem _ hr, hrd, hrp, hpne⟩
          · rintro (hacc | ⟨r, hr, hrd, hrp, hpne⟩)
            · have he := hcons r0.path i hacc i0 r0 (List.mem_cons_self _ _)
                hd' rfl
              exact Or.inl (by rw [he])
            · rcases List.mem_cons.mp hr with he | hr2
              · injection he with he1 he2
                exact Or.inl (by rw [he1])
              · exact Or.inr ⟨r, hr2, hrd, hrp, hpne⟩
        · rw [lookupKey_setKey_ne _ _ _ _ hpp]
          constructor
          · rintro (hacc | ⟨r, hr, hrd, hrp, hpne⟩)
            · exact Or.inl hacc
            · exact Or.inr ⟨r, List.mem_cons_of_mem _ hr, hrd, hrp, hpne⟩
          · rintro (hacc | ⟨r, hr, hrd, hrp, hpne⟩)
            · exact Or.inl hacc
            · rcases List.mem_cons.mp hr with he | hr2
              · injection he with he1 he2
                subst he2
                exact absurd hrp.symm hpp
              · exact Or.inr ⟨r, hr2, hrd, hrp, hpne⟩

theorem nodup_keys_rebuild (M : List (Nat × NoteRecord)) :
    ∀ (acc : List (Str × Nat)), (acc.map Prod.fst).Nodup →
      ((M.foldl rebuildStep acc).map Prod.fst).Nodup := by
  induction M with
  | nil =>
    intro acc h
    simpa using h
  | cons e M ih =>
    intro acc h
    rw [List.foldl_cons]
    apply ih
    unfold rebuildStep
    split_ifs
    · exact h
    · exact h
    · exact nodup_keys_setKey _ _ _ h

theorem syncRebuild_lookup (M : List (Nat × NoteRecord))
    (huniq : ∀ i1 r1 i2 r2, (i1, r1) ∈ M → (i2, r2) ∈ M → r1.deleted = false →
      r2.deleted = false → r1.path = r2.path → i1 = i2) :
    ∀ p i, lookupKey p (syncRebuild M) = some i ↔
      ∃ r, (i, r) ∈ M ∧ r.deleted = false ∧ r.path = p ∧ p ≠ [] := by
  intro p i
  have h := rebuild_foldl_lookup M [] huniq
    (by intro p2 i2 hl2; simp [lookupKey] at hl2) p i
  unfold syncRebuild
  rw [h]
  simp [lookupKey]

theorem sync_assembled_inv (st1 : IndexState) (nrm : List Str)
    (hinv1 : indexInv st1)
    (htomb1 : ∀ id r, lookupKey id st1.notes = some r → r.deleted = true →
      r.path ∉ nrm) :
    indexInv
      { st1 with
        notes := syncMark nrm st1.notes,
        pathToId := syncRebuild (syncMark nrm st1.notes) } := by
  obtain ⟨g1, g2, g3, g4, g5⟩ := hinv1
  have hlookM : ∀ id, lookupKey id (syncMark nrm st1.notes) =
      (lookupKey id st1.notes).map (markFn nrm) := by
    intro id
    rw [syncMark]
    exact lookupKey_map_value id _ _
  have hkeysM : (syncMark nrm st1.notes).map Prod.fst =
      st1.notes.map Prod.fst := by
    rw [syncMark]
    exact keys_map_value _ _
  have hI4M : ∀ id r, lookupKey id (syncMark nrm st1.notes) = some r →
      r.path ≠ [] := by
    intro id r hl
    rw [hlookM] at hl
    cases hl0 : lookupKey id st1.notes with
    | none =>
      rw [hl0] at hl
      simp at hl
    | some r0 =>
      rw [hl0] at hl
      simp only [Option.map_some'] at hl
      injection hl with he
      subst he
      rw [markFn_path]
      exact g4 _ _ hl0
  have hmark_live : ∀ r : NoteRecord, r.path ≠ [] →
      ((markFn nrm r).deleted = false ↔ r.path ∈ nrm) := by
    intro r hpne
    unfold markFn
    rw [if_neg hpne]
    by_cases hin : r.path ∈ nrm
    · rw [if_pos hin]
      simp [hin]
    · rw [if_neg hin]
      simp [hin]
  have huniqM : ∀ i1 r1 i2 r2, (i1, r1) ∈ syncMark nrm st1.notes →
      (i2, r2) ∈ syncMark nrm st1.notes → r1.deleted = false →
      r2.deleted = false → r1.path = r2.path → i1 = i2 := by
    intro i1 r1 i2 r2 m1 m2 hd1 hd2 hp
    rw [syncMark] at m1 m2
    obtain ⟨e1, he1, heq1⟩ := List.mem_map.mp m1
    obtain ⟨e2, he2, heq2⟩ := List.mem_map.mp m2
    injection heq1 with ha1 hb1
    injection heq2 with ha2 hb2
    subst ha1
    subst ha2
    subst hb1
    subst hb2
    have hl1 : lookupKey e1.1 st1.notes = some e1.2 :=
      lookupKey_of_mem_nodup _ _ _ g1 he1
    have hl2 : lookupKey e2.1 st1.notes = some e2.2 :=
      lookupKey_of_mem_nodup _ _ _ g1 he2
    have hpne1 := g4 _ _ hl1
    have hpne2 := g4 _ _ hl2
    have hin1 : e1.2.path ∈ nrm := (hmark_live e1.2 hpne1).mp hd1
    have hin2 : e2.2.path ∈ nrm := (hmark_live e2.2 hpne2).mp hd2
    have hlive1 : e1.2.deleted = false := by
      cases hdel : e1.2.deleted
      · rfl
      · exact absurd hin1 (htomb1 _ _ hl1 hdel)
    have hlive2 : e2.2.deleted = false := by
      cases hdel : e2.2.deleted
      · rfl
      · exact absurd hin2 (htomb1 _ _ hl2 hdel)
    rw [markFn_path, markFn_path] at hp
    exact liveUnique_of_projection st1 g5 e1.1 e1.2 e2.1 e2.2 hl1 hl2
      hlive1 hlive2 hp
  have c1 : ((syncMark nrm st1.notes).map Prod.fst).Nodup := by
    rw [hkeysM]
    exact g1
  have c2 : ((syncRebuild (syncMark nrm st1.notes)).map Prod.fst).Nodup := by
    unfold syncRebuild
    exact nodup_keys_rebuild _ [] (by simp)
  have c3 : ∀ id, id ∈ (syncMark nrm st1.notes).map Prod.fst →
      id < st1.nextId := by
    intro id hmem
    rw [hkeysM] at hmem
    exact g3 _ hmem
  have c5 : ∀ p id,
      lookupKey p (syncRebuild (syncMark nrm st1.notes)) = some id ↔
      ∃ r, lookupKey id (syncMark nrm st1.notes) = some r ∧
        r.deleted = false ∧ r.path = p := by
    intro p id
    rw [syncRebuild_lookup _ huniqM p id]
    constructor
    · rintro ⟨rm, hm, hrd, hrp, -⟩
      exact ⟨rm, lookupKey_of_mem_nodup _ _ _ c1 hm, hrd, hrp⟩
    · rintro ⟨rm, hlm, hrd, hrp⟩
      exact ⟨rm, mem_of_lookupKey _ _ _ hlm, hrd, hrp,
        by rw [← hrp]; exact hI4M _ _ hlm⟩
  exact ⟨c1, c2, c3, hI4M, c5⟩

theorem syncPaths_inv (st : IndexState) (ps : List Str)
    (hps : ∀ p ∈ ps, p ≠ [] → normalizePath p ≠ [])
    (htomb : ∀ noteId r, lookupKey noteId st.notes = some r →
      r.deleted = true → r.path ∉ normalizedList ps)
    (hinv : indexInv st) : indexInv (syncPaths st ps) := by
  have hqs := normalizedList_ne_nil ps hps
  have hinv1 := syncPhase1_inv (normalizedList ps) st hinv hqs
  have htomb1 : ∀ noteId r,
      lookupKey noteId (syncPhase1 st (normalizedList ps)).notes = some r →
      r.deleted = true → r.path ∉ normalizedList ps :=
    fun noteId r hl hd =>
      htomb noteId r
        (syncPhase1_tomb (normalizedList ps) st hinv hqs noteId r hl hd) hd
  exact sync_assembled_inv (syncPhase1 st (normalizedList ps))
    (normalizedList ps) hinv1 htomb1

theorem applyOp_inv (st : IndexState) (op : IndexOp) (hok : opOk st op)
    (hinv : indexInv st) : indexInv (applyOp st op) := by
  cases op with
  | ensure p => exact ensurePathLocked_inv st (normalizePath p) hok hinv
  | update noteId p => exact updatePath_inv st noteId p hok.1 hok.2.1 hok.2.2 hinv
  | delById noteId => exact markDeletedById_inv st noteId hinv
  | delByPath p => exact markDeletedByPath_inv st p hinv
  | sync ps => exact syncPaths_inv st ps hok.1 hok.2 hinv

theorem applyOps_inv (ops : List IndexOp) : ∀ st, indexInv st → opsOk st ops →
    indexInv (applyOps st ops) := by
  induction ops with
  | nil =>
    intro st hinv _
    exact hinv
  | cons op ops ih =>
    intro st hinv hok
    exact ih _ (applyOp_inv st op hok.1 hinv) hok.2

/-- C5 (amended): starting from the empty index, for every sequence of
ensure_path, update_path, mark_deleted_by_id/by_path and sync_paths
operations in which every supplied path normalizes to a nonempty string,
update_path only retargets an existing live record to a path held by no
other live record, and sync_paths is never handed the path of a tombstoned
record, every reached state satisfies both halves of the claim: the
path_to_id table is exactly the projection of the notes table over
non-deleted records, and no two non-deleted records share a path. -/
theorem C5_index_invariant (ops : List IndexOp)
    (hok : opsOk emptyIndex ops) :
    pathProjection (applyOps emptyIndex ops) ∧
    liveUnique (applyOps emptyIndex ops) := by
  have hinv := applyOps_inv ops emptyIndex emptyIndex_inv hok
  exact ⟨hinv.2.2.2.2, liveUnique_of_projection _ hinv.2.2.2.2⟩

/-- Witness for the amended C5 theorem at the one-operation sequence that
ensures path "a". -/
theorem C5_index_invariant_witness :
    pathProjection (applyOps emptyIndex [.ensure "a".data]) ∧
    liveUnique (applyOps emptyIndex [.ensure "a".data]) :=
  C5_index_invariant [.ensure "a".data]
    ⟨(by decide : normalizePath "a".data ≠ []), trivial⟩
